import Mathlib

/-!
Verification of the client-side document-to-text pipeline of the
handwritten-transcript application.

The development shallowly embeds the relevant source functions over
List Char (strings) and small explicit models of the external
collaborators (the PDF library, the OCR engine, the server action).
All definitions are computable; concrete runs are settled by
evaluation.
-/

namespace Transcribe

/-- ASCII whitespace, the fragment of the JavaScript trim character class
used by every string in this model. -/
def isWs (c : Char) : Bool :=
  c = ' ' || c = '\t' || c = '\n' || c = '\r' || c = '\x0b' || c = '\x0c'

/-- The regex class [a-z] of the OCR-repair rules. -/
def isLowerAscii (c : Char) : Bool := 'a' ≤ c && c ≤ 'z'

/-- The regex class [A-Z] of the OCR-repair and paragraph rules. -/
def isUpperAscii (c : Char) : Bool := 'A' ≤ c && c ≤ 'Z'

/-- Sentence-ending punctuation of the paragraph rule. -/
def isSentEnd (c : Char) : Bool := c = '.' || c = '!' || c = '?'

/-- Global replacement of the two-character sequence CR LF by LF,
mirroring the first rule of formatTranscript. -/
def crlfToLf : List Char → List Char
  | [] => []
  | '\r' :: '\n' :: rest => '\n' :: crlfToLf rest
  | c :: rest => c :: crlfToLf rest

/-- Global replacement of each tab by four spaces. -/
def expandTabs : List Char → List Char
  | [] => []
  | '\t' :: rest => ' ' :: ' ' :: ' ' :: ' ' :: expandTabs rest
  | c :: rest => c :: expandTabs rest

/-- What a finished run of k copies of c becomes under the collapse
rules: runs of three or more are replaced by exactly two. -/
def emitRun (c : Char) (k : Nat) : List Char :=
  if 3 ≤ k then [c, c] else List.replicate k c

/-- Greedy scan collapsing every maximal run of three or more copies of c
down to two copies; k counts the pending copies already scanned. -/
def collapseRuns (c : Char) : List Char → Nat → List Char
  | [], k => emitRun c k
  | a :: rest, k =>
    if a = c then collapseRuns c rest (k + 1)
    else emitRun c k ++ a :: collapseRuns c rest 0

/-- The rule collapsing three or more consecutive spaces to two. -/
def collapseSpaces (l : List Char) : List Char := collapseRuns ' ' l 0

/-- The rule collapsing three or more consecutive newlines to two. -/
def collapseNewlines (l : List Char) : List Char := collapseRuns '\n' l 0

/-- One OCR-repair rule: a character satisfying the left class, then the
punctuation mark p, then a character satisfying the right class, becomes
the same three characters with a space inserted after p. The scan resumes
after the consumed right character, as the JavaScript global replace does. -/
def fixPunct (p : Char) (lc rc : Char → Bool) : List Char → List Char
  | a :: b :: d :: rest =>
    if lc a && b = p && rc d then a :: p :: ' ' :: d :: fixPunct p lc rc rest
    else a :: fixPunct p lc rc (b :: d :: rest)
  | l => l

/-- The paragraph rule: sentence-ending punctuation, a single newline and
an upcoming uppercase letter get a second newline; the uppercase letter is
a lookahead and is not consumed. -/
def paraBreaks : List Char → List Char
  | a :: b :: d :: rest =>
    if isSentEnd a && b = '\n' && isUpperAscii d then
      a :: '\n' :: '\n' :: paraBreaks (d :: rest)
    else a :: paraBreaks (b :: d :: rest)
  | l => l

/-- Split at every newline, as the JavaScript split on a newline does;
the empty string yields one empty line. -/
def splitNl : List Char → List (List Char)
  | [] => [[]]
  | '\n' :: rest => [] :: splitNl rest
  | c :: rest =>
    match splitNl rest with
    | [] => [[c]]
    | l :: ls => (c :: l) :: ls

/-- Rejoin lines with single newlines. -/
def joinNl : List (List Char) → List Char
  | [] => []
  | [l] => l
  | l :: ls => l ++ '\n' :: joinNl ls

/-- Leading-whitespace removal. -/
def trimL (l : List Char) : List Char := l.dropWhile isWs

/-- Trailing-whitespace removal, keeping a character exactly when a
non-whitespace character occurs at or after it. -/
def trimR : List Char → List Char
  | [] => []
  | c :: rest =>
    match trimR rest with
    | [] => if isWs c then [] else [c]
    | r :: rs => c :: r :: rs

/-- Both-ends whitespace removal, the JavaScript trim. -/
def trim (l : List Char) : List Char := trimR (trimL l)

/-- The per-line cleanup: split into lines, trim each, rejoin. -/
def trimLines (l : List Char) : List Char := joinNl ((splitNl l).map trim)

/-- True when the first two characters both equal b. -/
def startsTwo (b : Char) : List Char → Bool
  | x :: y :: _ => x = b && y = b
  | _ => false

/-- True when three consecutive copies of b occur somewhere in the list. -/
def hasTriple (b : Char) : List Char → Bool
  | x :: rest => ((x = b) && startsTwo b rest) || hasTriple b rest
  | [] => false

/-- The transcript formatter, translated rule for rule from
src/utils/format-transcript.ts. -/
def formatTranscript (text : List Char) : List Char :=
  if trim text = [] then []
  else
    let s1 := collapseNewlines (collapseSpaces (expandTabs (crlfToLf text)))
    let s2 := fixPunct ':' isLowerAscii isLowerAscii
      (fixPunct ',' isLowerAscii isLowerAscii
        (fixPunct '.' isLowerAscii isUpperAscii s1))
    let s3 := paraBreaks s2
    trim (trimLines s3)

/-! ### Basic facts about startsTwo and hasTriple -/

theorem hasTriple_cons (b a : Char) (l : List Char) :
    hasTriple b (a :: l) = (((a = b) && startsTwo b l) || hasTriple b l) := rfl

theorem startsTwo_head (b : Char) {l : List Char} (h : startsTwo b l = true) :
    ∃ t, l = b :: b :: t := by
  match l with
  | [] => simp [startsTwo] at h
  | [x] => simp [startsTwo] at h
  | x :: y :: t =>
    simp only [startsTwo, Bool.and_eq_true, decide_eq_true_eq] at h
    exact ⟨t, by rw [h.1, h.2]⟩

theorem startsTwo_cons_cons (b x y : Char) (l : List Char) :
    startsTwo b (x :: y :: l) = ((x = b) && (y = b)) := rfl

theorem hasTriple_of_tail {b a : Char} {l : List Char}
    (h : hasTriple b l = true) : hasTriple b (a :: l) = true := by
  rw [hasTriple_cons, h, Bool.or_true]

theorem hasTriple_cons_ne {b a : Char} (l : List Char) (h : a ≠ b) :
    hasTriple b (a :: l) = hasTriple b l := by
  rw [hasTriple_cons]
  simp [h]

theorem hasTriple_of_short {b : Char} {l : List Char} (h : l.length ≤ 2) :
    hasTriple b l = false := by
  match l with
  | [] => rfl
  | [x] => simp [hasTriple, startsTwo]
  | [x, y] => simp [hasTriple, startsTwo]
  | x :: y :: z :: t => simp at h

theorem hasTriple_allNe_append {b : Char} {xs : List Char} (ys : List Char)
    (h : ∀ x ∈ xs, x ≠ b) : hasTriple b (xs ++ ys) = hasTriple b ys := by
  induction xs with
  | nil => rfl
  | cons x xs ih =>
    have hx : x ≠ b := h x (List.mem_cons_self x xs)
    rw [List.cons_append, hasTriple_cons_ne _ hx, ih]
    intro y hy
    exact h y (List.mem_cons_of_mem x hy)

theorem hasTriple_allNe {b : Char} {xs : List Char}
    (h : ∀ x ∈ xs, x ≠ b) : hasTriple b xs = false := by
  have := hasTriple_allNe_append (b := b) [] h
  simpa using this

theorem startsTwo_append_sep {b a : Char} (xs ys : List Char) (h : a ≠ b) :
    startsTwo b (xs ++ a :: ys) = startsTwo b xs := by
  match xs with
  | [] =>
    match ys with
    | [] => simp [startsTwo, h]
    | y :: t => simp [startsTwo, h]
  | [x] => simp [startsTwo, h]
  | x :: y :: t => simp [startsTwo]

theorem hasTriple_append_sep {b a : Char} (xs ys : List Char) (h : a ≠ b) :
    hasTriple b (xs ++ a :: ys) = (hasTriple b xs || hasTriple b ys) := by
  induction xs with
  | nil =>
    show hasTriple b (a :: ys) = (hasTriple b [] || hasTriple b ys)
    rw [hasTriple_cons_ne _ h]
    simp [hasTriple]
  | cons x xs ih =>
    rw [List.cons_append, hasTriple_cons, ih, startsTwo_append_sep _ _ h,
      hasTriple_cons]
    rw [Bool.or_assoc]

theorem startsTwo_append_of {b : Char} {xs : List Char} (ys : List Char)
    (h : startsTwo b xs = true) : startsTwo b (xs ++ ys) = true := by
  obtain ⟨t, rfl⟩ := startsTwo_head b h
  simp [startsTwo]

theorem hasTriple_append_left {b : Char} {xs : List Char} (ys : List Char)
    (h : hasTriple b xs = true) : hasTriple b (xs ++ ys) = true := by
  induction xs with
  | nil => simp [hasTriple] at h
  | cons x xs ih =>
    rw [hasTriple_cons] at h
    rw [List.cons_append, hasTriple_cons]
    simp only [Bool.or_eq_true, Bool.and_eq_true, decide_eq_true_eq] at h
    rcases h with ⟨hx, hs⟩ | h2
    · rw [startsTwo_append_of ys hs]
      simp [hx]
    · rw [ih h2, Bool.or_true]

theorem hasTriple_append_right {b : Char} (xs : List Char) {ys : List Char}
    (h : hasTriple b ys = true) : hasTriple b (xs ++ ys) = true := by
  induction xs with
  | nil => simpa using h
  | cons x xs ih => exact hasTriple_of_tail ih

/-! ### Facts about the run-collapsing scan -/

theorem mem_emitRun {c x : Char} {k : Nat} (h : x ∈ emitRun c k) : x = c := by
  unfold emitRun at h
  by_cases h3 : 3 ≤ k
  · rw [if_pos h3] at h
    rcases List.mem_cons.mp h with h | h
    · exact h
    · simpa using h
  · rw [if_neg h3] at h
    exact (List.eq_of_mem_replicate h)

theorem length_emitRun_le (c : Char) (k : Nat) : (emitRun c k).length ≤ 2 := by
  unfold emitRun
  by_cases h3 : 3 ≤ k
  · simp [h3]
  · simp [h3]
    omega

theorem hasTriple_emitRun (b c : Char) (k : Nat) :
    hasTriple b (emitRun c k) = false :=
  hasTriple_of_short (length_emitRun_le c k)

theorem collapseRuns_nil (c : Char) (k : Nat) :
    collapseRuns c [] k = emitRun c k := rfl

theorem collapseRuns_cons (c a : Char) (rest : List Char) (k : Nat) :
    collapseRuns c (a :: rest) k =
      if a = c then collapseRuns c rest (k + 1)
      else emitRun c k ++ a :: collapseRuns c rest 0 := rfl

theorem emitRun_zero (c : Char) : emitRun c 0 = [] := rfl

theorem emitRun_ne_nil (c : Char) {k : Nat} (hk : 1 ≤ k) :
    emitRun c k ≠ [] := by
  unfold emitRun
  by_cases h3 : 3 ≤ k
  · simp [h3]
  · rw [if_neg h3]
    match k, hk with
    | k + 1, _ => simp [List.replicate_succ]

theorem head_collapseRuns_pos (c : Char) :
    ∀ (l : List Char) (k : Nat), 1 ≤ k →
      (collapseRuns c l k).head? = some c := by
  intro l
  induction l with
  | nil =>
    intro k hk
    rw [collapseRuns_nil]
    match he : emitRun c k with
    | [] => exact absurd he (emitRun_ne_nil c hk)
    | e :: es =>
      have : e = c := mem_emitRun (by rw [he]; exact List.mem_cons_self e es)
      simp [this]
  | cons a rest ih =>
    intro k hk
    rw [collapseRuns_cons]
    by_cases hac : a = c
    · rw [if_pos hac]
      exact ih (k + 1) (by omega)
    · rw [if_neg hac]
      match he : emitRun c k with
      | [] => exact absurd he (emitRun_ne_nil c hk)
      | e :: es =>
        have : e = c := mem_emitRun (by rw [he]; exact List.mem_cons_self e es)
        simp [this]

theorem head_collapseRuns0 {b c : Char} (hbc : b ≠ c) :
    ∀ {l : List Char}, (collapseRuns c l 0).head? = some b →
      l.head? = some b := by
  intro l h
  match l with
  | [] => simp [collapseRuns_nil, emitRun] at h
  | a :: rest =>
    rw [collapseRuns_cons] at h
    by_cases hac : a = c
    · rw [if_pos hac] at h
      rw [head_collapseRuns_pos c rest 1 (by omega)] at h
      exact absurd (Option.some.inj h).symm hbc
    · rw [if_neg hac, emitRun_zero, List.nil_append] at h
      simpa using h

theorem startsTwo_collapseRuns0 {b c : Char} (hbc : b ≠ c) :
    ∀ {l : List Char}, startsTwo b (collapseRuns c l 0) = true →
      startsTwo b l = true := by
  intro l h
  match l with
  | [] => simp [collapseRuns_nil, emitRun, startsTwo] at h
  | a :: rest =>
    rw [collapseRuns_cons] at h
    by_cases hac : a = c
    · rw [if_pos hac] at h
      obtain ⟨t, ht⟩ := startsTwo_head b h
      have := head_collapseRuns_pos c rest 1 (by omega)
      rw [ht] at this
      exact absurd (Option.some.inj this) hbc
    · rw [if_neg hac, emitRun_zero, List.nil_append] at h
      match hM : collapseRuns c rest 0 with
      | [] =>
        rw [hM] at h
        simp [startsTwo] at h
      | m :: ms =>
        rw [hM, startsTwo_cons_cons] at h
        simp only [Bool.and_eq_true, decide_eq_true_eq] at h
        have hd : (collapseRuns c rest 0).head? = some b := by
          rw [hM]
          simp [h.2]
        have hr := head_collapseRuns0 hbc hd
        match rest, hr with
        | r :: rs, hr =>
          have hrb : r = b := by simpa using hr
          simp [startsTwo, h.1, hrb]

/-- The collapse scan never leaves three consecutive copies of the
collapsed character. -/
theorem hasTriple_collapseRuns_self (c : Char) :
    ∀ (l : List Char) (k : Nat), hasTriple c (collapseRuns c l k) = false := by
  intro l
  induction l with
  | nil =>
    intro k
    rw [collapseRuns_nil]
    exact hasTriple_emitRun c c k
  | cons a rest ih =>
    intro k
    rw [collapseRuns_cons]
    by_cases hac : a = c
    · rw [if_pos hac]
      exact ih (k + 1)
    · rw [if_neg hac]
      rw [hasTriple_append_sep _ _ hac, hasTriple_emitRun, ih 0]
      rfl

/-- The collapse scan creates no new triple of any other character. -/
theorem hasTriple_collapseRuns_other {b c : Char} (hbc : b ≠ c) :
    ∀ (l : List Char) (k : Nat),
      hasTriple b (collapseRuns c l k) = true → hasTriple b l = true := by
  intro l
  induction l with
  | nil =>
    intro k h
    rw [collapseRuns_nil, hasTriple_emitRun] at h
    exact absurd h (by simp)
  | cons a rest ih =>
    intro k h
    rw [collapseRuns_cons] at h
    by_cases hac : a = c
    · rw [if_pos hac] at h
      exact hasTriple_of_tail (ih (k + 1) h)
    · rw [if_neg hac] at h
      have hemit : ∀ x ∈ emitRun c k, x ≠ b := by
        intro x hx
        rw [mem_emitRun hx]
        exact fun hcb => hbc hcb.symm
      rw [hasTriple_allNe_append _ hemit, hasTriple_cons] at h
      simp only [Bool.or_eq_true, Bool.and_eq_true, decide_eq_true_eq] at h
      rcases h with ⟨hab, hst⟩ | h2
      · have := startsTwo_collapseRuns0 hbc hst
        rw [hasTriple_cons]
        obtain ⟨t, ht⟩ := startsTwo_head b this
        rw [ht]
        simp [startsTwo, hab]
      · exact hasTriple_of_tail (ih 0 h2)

/-- Every character of the collapse output is the collapsed character or
comes from the input. -/
theorem mem_collapseRuns {c x : Char} :
    ∀ {l : List Char} {k : Nat}, x ∈ collapseRuns c l k → x = c ∨ x ∈ l := by
  intro l
  induction l with
  | nil =>
    intro k h
    rw [collapseRuns_nil] at h
    exact Or.inl (mem_emitRun h)
  | cons a rest ih =>
    intro k h
    rw [collapseRuns_cons] at h
    by_cases hac : a = c
    · rw [if_pos hac] at h
      rcases ih h with h | h
      · exact Or.inl h
      · exact Or.inr (List.mem_cons_of_mem a h)
    · rw [if_neg hac] at h
      rcases List.mem_append.mp h with h | h
      · exact Or.inl (mem_emitRun h)
      · rcases List.mem_cons.mp h with h | h
        · exact Or.inr (h ▸ List.mem_cons_self a rest)
        · rcases ih h with h | h
          · exact Or.inl h
          · exact Or.inr (List.mem_cons_of_mem a h)

theorem replicate_shift (c : Char) (k : Nat) (rest : List Char) :
    List.replicate k c ++ c :: rest = c :: (List.replicate k c ++ rest) := by
  induction k with
  | zero => rfl
  | succ k ih => simp [List.replicate_succ, ih]

theorem hasTriple_replicate_ge3 {c : Char} {k : Nat} (h3 : 3 ≤ k)
    (t : List Char) : hasTriple c (List.replicate k c ++ t) = true := by
  match k, h3 with
  | k + 3, _ =>
    rw [show k + 3 = ((k + 2) + 1) from rfl, List.replicate_succ]
    rw [show (k + 2) = ((k + 1) + 1) from rfl, List.replicate_succ]
    rw [List.replicate_succ]
    simp only [List.cons_append, hasTriple_cons]
    rw [startsTwo_cons_cons]
    simp

/-- On input without a triple of c, the collapse scan is the identity
once the pending run is restored in front. -/
theorem collapseRuns_eq_self_aux (c : Char) :
    ∀ (l : List Char) (k : Nat),
      hasTriple c (List.replicate k c ++ l) = false →
      collapseRuns c l k = List.replicate k c ++ l := by
  intro l
  induction l with
  | nil =>
    intro k h
    rw [collapseRuns_nil]
    unfold emitRun
    by_cases h3 : 3 ≤ k
    · rw [hasTriple_replicate_ge3 h3] at h
      exact absurd h (by simp)
    · rw [if_neg h3]
      simp
  | cons a rest ih =>
    intro k h
    rw [collapseRuns_cons]
    by_cases hac : a = c
    · rw [if_pos hac]
      subst hac
      rw [replicate_shift] at h
      rw [ih (k + 1) (by rw [List.replicate_succ]; simpa using h)]
      rw [List.replicate_succ, List.cons_append]
      exact (replicate_shift a k rest).symm
    · rw [if_neg hac]
      have hk3 : ¬ 3 ≤ k := by
        intro h3
        rw [hasTriple_replicate_ge3 h3] at h
        simp at h
      have hrest : hasTriple c rest = false := by
        rw [hasTriple_append_sep _ _ hac] at h
        simp only [Bool.or_eq_false_iff] at h
        exact h.2
      rw [ih 0 (by simpa using hrest)]
      unfold emitRun
      rw [if_neg hk3]
      simp

/-- On input without a triple of c, the collapse scan is the identity. -/
theorem collapseRuns_eq_self {c : Char} {l : List Char}
    (h : hasTriple c l = false) : collapseRuns c l 0 = l := by
  have := collapseRuns_eq_self_aux c l 0 (by simpa using h)
  simpa using this

/-- On input without any copy of c, the collapse scan is the identity. -/
theorem collapseRuns_eq_of_no_c {c : Char} {l : List Char}
    (h : ∀ x ∈ l, x ≠ c) : collapseRuns c l 0 = l :=
  collapseRuns_eq_self (hasTriple_allNe h)

/-- The collapse scan distributes over any occurrence of a different
character. -/
theorem collapseRuns_append_sep {c a : Char} (hac : a ≠ c) (xs ys : List Char) :
    ∀ k, collapseRuns c (xs ++ a :: ys) k =
      collapseRuns c xs k ++ a :: collapseRuns c ys 0 := by
  induction xs with
  | nil =>
    intro k
    rw [List.nil_append, collapseRuns_cons, if_neg hac, collapseRuns_nil]
  | cons x xs ih =>
    intro k
    rw [List.cons_append, collapseRuns_cons, collapseRuns_cons]
    by_cases hxc : x = c
    · rw [if_pos hxc, if_pos hxc, ih]
    · rw [if_neg hxc, if_neg hxc, ih 0]
      simp

/-! ### Facts about trimming -/

theorem trimL_nil : trimL [] = [] := rfl

theorem trimL_cons (c : Char) (rest : List Char) :
    trimL (c :: rest) = if isWs c then trimL rest else c :: rest := by
  unfold trimL
  by_cases h : isWs c
  · simp [List.dropWhile_cons, h]
  · simp [List.dropWhile_cons, h]

theorem trimR_nil : trimR [] = [] := rfl

theorem trimR_cons (c : Char) (rest : List Char) :
    trimR (c :: rest) =
      match trimR rest with
      | [] => if isWs c then [] else [c]
      | r :: rs => c :: r :: rs := rfl

theorem trimR_cons_of_ne_nil (c : Char) {rest : List Char}
    (h : trimR rest ≠ []) : trimR (c :: rest) = c :: trimR rest := by
  rw [trimR_cons]
  match hr : trimR rest with
  | [] => exact absurd hr h
  | r :: rs => rfl

theorem trimR_prefix : ∀ l : List Char, ∃ t, trimR l ++ t = l := by
  intro l
  induction l with
  | nil => exact ⟨[], rfl⟩
  | cons c rest ih =>
    rw [trimR_cons]
    match hr : trimR rest with
    | [] =>
      by_cases h : isWs c
      · exact ⟨c :: rest, by simp [h]⟩
      · obtain ⟨t, ht⟩ := ih
        rw [hr] at ht
        exact ⟨rest, by simp [h]⟩
    | r :: rs =>
      obtain ⟨t, ht⟩ := ih
      rw [hr] at ht
      exact ⟨t, by rw [List.cons_append, ht]⟩

theorem trimL_suffix : ∀ l : List Char, ∃ s, s ++ trimL l = l := by
  intro l
  induction l with
  | nil => exact ⟨[], rfl⟩
  | cons c rest ih =>
    rw [trimL_cons]
    by_cases h : isWs c
    · obtain ⟨s, hs⟩ := ih
      exact ⟨c :: s, by rw [if_pos h, List.cons_append, hs]⟩
    · exact ⟨[], by rw [if_neg h]; rfl⟩

theorem hasTriple_trimL {b : Char} {l : List Char}
    (h : hasTriple b (trimL l) = true) : hasTriple b l = true := by
  obtain ⟨s, hs⟩ := trimL_suffix l
  rw [← hs]
  exact hasTriple_append_right s h

theorem hasTriple_trimR {b : Char} {l : List Char}
    (h : hasTriple b (trimR l) = true) : hasTriple b l = true := by
  obtain ⟨t, ht⟩ := trimR_prefix l
  rw [← ht]
  exact hasTriple_append_left t h

theorem hasTriple_trim {b : Char} {l : List Char}
    (h : hasTriple b (trim l) = true) : hasTriple b l = true :=
  hasTriple_trimL (hasTriple_trimR h)

theorem mem_trimL {x : Char} {l : List Char} (h : x ∈ trimL l) : x ∈ l := by
  obtain ⟨s, hs⟩ := trimL_suffix l
  rw [← hs]
  exact List.mem_append_right s h

theorem mem_trimR {x : Char} {l : List Char} (h : x ∈ trimR l) : x ∈ l := by
  obtain ⟨t, ht⟩ := trimR_prefix l
  rw [← ht]
  exact List.mem_append_left t h

theorem mem_trim {x : Char} {l : List Char} (h : x ∈ trim l) : x ∈ l :=
  mem_trimL (mem_trimR h)

theorem trimL_eq_nil_iff {l : List Char} :
    trimL l = [] ↔ ∀ c ∈ l, isWs c = true := by
  induction l with
  | nil => simp [trimL_nil]
  | cons c rest ih =>
    rw [trimL_cons]
    by_cases h : isWs c
    · rw [if_pos h]
      simp [h, ih]
    · rw [if_neg h]
      simp [h]

theorem trimR_eq_nil_iff {l : List Char} :
    trimR l = [] ↔ ∀ c ∈ l, isWs c = true := by
  induction l with
  | nil => simp [trimR_nil]
  | cons c rest ih =>
    match hr : trimR rest with
    | [] =>
      rw [hr] at ih
      have hcr : trimR (c :: rest) = if isWs c then [] else [c] := by
        rw [trimR_cons, hr]
      rw [hcr]
      by_cases h : isWs c
      · rw [if_pos h]
        constructor
        · intro _ a ha
          rcases List.mem_cons.mp ha with rfl | ha
          · exact h
          · exact ih.mp rfl a ha
        · intro _
          rfl
      · rw [if_neg h]
        constructor
        · intro hx
          simp at hx
        · intro hx
          exact absurd (hx c (List.mem_cons_self c rest)) (by simpa using h)
    | r :: rs =>
      rw [hr] at ih
      have hcr : trimR (c :: rest) = c :: r :: rs := by
        rw [trimR_cons, hr]
      rw [hcr]
      constructor
      · intro hx
        simp at hx
      · intro hx
        have : ∀ a ∈ rest, isWs a = true := fun a ha => hx a (List.mem_cons_of_mem _ ha)
        rw [← ih] at this
        simp at this

theorem trim_eq_nil_iff {l : List Char} :
    trim l = [] ↔ ∀ c ∈ l, isWs c = true := by
  unfold trim
  rw [trimR_eq_nil_iff]
  constructor
  · intro h c hc
    by_cases hw : ∀ x ∈ l, isWs x = true
    · exact hw c hc
    · push_neg at hw
      obtain ⟨x, hx, hxw⟩ := hw
      exfalso
      have : trimL l ≠ [] := by
        rw [Ne, trimL_eq_nil_iff]
        push_neg
        exact ⟨x, hx, hxw⟩
      match hL : trimL l with
      | [] => exact this hL
      | y :: ys =>
        have hy : isWs y = false := by
          have := List.head?_dropWhile_not isWs l
          unfold trimL at hL
          rw [hL] at this
          simpa using this
        have := h y (by rw [hL]; exact List.mem_cons_self y ys)
        rw [hy] at this
        exact Bool.false_ne_true this
  · intro h c hc
    exact h c (mem_trimL hc)

theorem trimL_idem (l : List Char) : trimL (trimL l) = trimL l := by
  induction l with
  | nil => rfl
  | cons c rest ih =>
    rw [trimL_cons]
    by_cases h : isWs c
    · rw [if_pos h, ih]
    · rw [if_neg h, trimL_cons, if_neg h]

theorem trimR_idem (l : List Char) : trimR (trimR l) = trimR l := by
  induction l with
  | nil => rfl
  | cons c rest ih =>
    rw [trimR_cons]
    match hr : trimR rest with
    | [] =>
      by_cases h : isWs c
      · rw [if_pos h, trimR_nil]
      · rw [if_neg h, trimR_cons, trimR_nil, if_neg h]
    | r :: rs =>
      rw [hr] at ih
      rw [trimR_cons_of_ne_nil c (by rw [ih]; simp), ih]

theorem trimL_trimR_comm (l : List Char) :
    trimL (trimR l) = trimR (trimL l) := by
  induction l with
  | nil => rfl
  | cons c rest ih =>
    match hr : trimR rest with
    | [] =>
      rw [hr] at ih
      have hcr : trimR (c :: rest) = if isWs c then [] else [c] := by
        rw [trimR_cons, hr]
      by_cases h : isWs c
      · have hL : trimL (c :: rest) = trimL rest := by rw [trimL_cons, if_pos h]
        rw [hcr, if_pos h, hL, trimL_nil, ← ih, trimL_nil]
      · have hL : trimL (c :: rest) = c :: rest := by rw [trimL_cons, if_neg h]
        rw [hcr, if_neg h, hL, trimL_cons, if_neg h, hcr, if_neg h]
    | r :: rs =>
      rw [hr] at ih
      have hcr : trimR (c :: rest) = c :: r :: rs := by
        rw [trimR_cons, hr]
      by_cases h : isWs c
      · have hL : trimL (c :: rest) = trimL rest := by rw [trimL_cons, if_pos h]
        rw [hcr, hL, ← ih, trimL_cons, if_pos h]
      · have hL : trimL (c :: rest) = c :: rest := by rw [trimL_cons, if_neg h]
        rw [hcr, hL, trimL_cons, if_neg h, hcr]

theorem trim_idem (l : List Char) : trim (trim l) = trim l := by
  unfold trim
  rw [trimL_trimR_comm, trimR_idem, trimL_idem]

theorem trimL_append (xs ys : List Char) :
    trimL (xs ++ ys) =
      if trimL xs = [] then trimL ys else trimL xs ++ ys := by
  induction xs with
  | nil => simp [trimL_nil]
  | cons x xs ih =>
    rw [List.cons_append, trimL_cons, trimL_cons]
    by_cases h : isWs x
    · rw [if_pos h, if_pos h, ih]
    · rw [if_neg h, if_neg h, if_neg (by simp)]
      simp

theorem trimR_append (xs ys : List Char) :
    trimR (xs ++ ys) =
      if trimR ys = [] then trimR xs else xs ++ trimR ys := by
  induction xs with
  | nil =>
    rw [List.nil_append]
    by_cases hys : trimR ys = []
    · rw [if_pos hys, hys, trimR_nil]
    · rw [if_neg hys, List.nil_append]
  | cons x xs ih =>
    by_cases hys : trimR ys = []
    · rw [if_pos hys] at ih
      rw [if_pos hys, List.cons_append, trimR_cons, ih, ← trimR_cons]
    · rw [if_neg hys] at ih
      have hne : trimR (xs ++ ys) ≠ [] := by
        rw [ih]
        simp [hys]
      rw [if_neg hys, List.cons_append, trimR_cons_of_ne_nil x hne, ih,
        List.cons_append]

/-! ### Equations for the two-character and guarded scans -/

theorem crlfToLf_nil : crlfToLf [] = [] := rfl

theorem crlfToLf_crlf (rest : List Char) :
    crlfToLf ('\r' :: '\n' :: rest) = '\n' :: crlfToLf rest := rfl

theorem crlfToLf_cons_ne (c : Char) (rest : List Char)
    (h : ∀ r, c = '\r' → rest = '\n' :: r → False) :
    crlfToLf (c :: rest) = c :: crlfToLf rest := by
  conv_lhs => rw [crlfToLf.eq_def]
  split
  · rename_i heq
    exact absurd heq (by simp)
  · rename_i r heq
    obtain ⟨h1, h2⟩ := List.cons.inj heq
    exact absurd trivial (fun _ => h _ h1 h2)
  · rename_i c2 rest2 hx heq
    obtain ⟨h1, h2⟩ := List.cons.inj heq
    subst h1
    subst h2
    rfl

theorem expandTabs_nil : expandTabs [] = [] := rfl

theorem expandTabs_tab (rest : List Char) :
    expandTabs ('\t' :: rest) = ' ' :: ' ' :: ' ' :: ' ' :: expandTabs rest :=
  rfl

theorem expandTabs_cons_ne (c : Char) (rest : List Char) (h : c ≠ '\t') :
    expandTabs (c :: rest) = c :: expandTabs rest := by
  conv_lhs => rw [expandTabs.eq_def]
  split
  · rename_i heq
    exact absurd heq (by simp)
  · rename_i heq
    obtain ⟨h1, h2⟩ := List.cons.inj heq
    exact absurd h1 h
  · rename_i c2 rest2 hx heq
    obtain ⟨h1, h2⟩ := List.cons.inj heq
    subst h1
    subst h2
    rfl

/-! ### Non-whitespace characters survive every formatter step -/

theorem mem_crlfToLf {x : Char} (hx : isWs x = false) :
    ∀ {l : List Char}, x ∈ l → x ∈ crlfToLf l := by
  intro l
  induction l using crlfToLf.induct with
  | case1 => intro h; simp at h
  | case2 rest ih =>
    intro h
    rw [crlfToLf_crlf]
    rcases List.mem_cons.mp h with rfl | h
    · simp [isWs] at hx
    · rcases List.mem_cons.mp h with rfl | h
      · exact List.mem_cons_self _ _
      · exact List.mem_cons_of_mem _ (ih h)
  | case3 c rest hne ih =>
    intro h
    rw [crlfToLf_cons_ne c rest hne]
    rcases List.mem_cons.mp h with rfl | h
    · exact List.mem_cons_self _ _
    · exact List.mem_cons_of_mem _ (ih h)

theorem mem_expandTabs {x : Char} (hx : isWs x = false) :
    ∀ {l : List Char}, x ∈ l → x ∈ expandTabs l := by
  intro l
  induction l using expandTabs.induct with
  | case1 => intro h; simp at h
  | case2 rest ih =>
    intro h
    rw [expandTabs_tab]
    rcases List.mem_cons.mp h with rfl | h
    · simp [isWs] at hx
    · exact List.mem_cons_of_mem _ (List.mem_cons_of_mem _
        (List.mem_cons_of_mem _ (List.mem_cons_of_mem _ (ih h))))
  | case3 c rest hne ih =>
    intro h
    rw [expandTabs_cons_ne c rest (fun hc => hne hc)]
    rcases List.mem_cons.mp h with rfl | h
    · exact List.mem_cons_self _ _
    · exact List.mem_cons_of_mem _ (ih h)

theorem mem_collapseRuns_of {c x : Char} (hxc : x ≠ c) :
    ∀ {l : List Char} {k : Nat}, x ∈ l → x ∈ collapseRuns c l k := by
  intro l
  induction l with
  | nil => intro k h; simp at h
  | cons a rest ih =>
    intro k h
    rw [collapseRuns_cons]
    by_cases hac : a = c
    · rw [if_pos hac]
      rcases List.mem_cons.mp h with rfl | h
      · exact absurd hac hxc
      · exact ih h
    · rw [if_neg hac]
      rcases List.mem_cons.mp h with rfl | h
      · exact List.mem_append_right _ (List.mem_cons_self _ _)
      · exact List.mem_append_right _ (List.mem_cons_of_mem _ (ih h))

theorem mem_trimL_of {x : Char} (hx : isWs x = false) :
    ∀ {l : List Char}, x ∈ l → x ∈ trimL l := by
  intro l
  induction l with
  | nil => intro h; simp at h
  | cons c rest ih =>
    intro h
    rw [trimL_cons]
    by_cases hc : isWs c
    · rw [if_pos hc]
      rcases List.mem_cons.mp h with rfl | h
      · rw [hc] at hx; exact absurd hx (by simp)
      · exact ih h
    · rw [if_neg hc]
      exact h

theorem mem_trimR_of {x : Char} (hx : isWs x = false) :
    ∀ {l : List Char}, x ∈ l → x ∈ trimR l := by
  intro l
  induction l with
  | nil => intro h; simp at h
  | cons c rest ih =>
    intro h
    match hr : trimR rest with
    | [] =>
      have hall : ∀ a ∈ rest, isWs a = true := trimR_eq_nil_iff.mp hr
      have hxc : x = c := by
        rcases List.mem_cons.mp h with rfl | h
        · rfl
        · rw [hall x h] at hx
          exact absurd hx (by simp)
      have hwc : isWs c = false := hxc ▸ hx
      rw [trimR_cons, hr, if_neg (by simp [hwc]), hxc]
      exact List.mem_cons_self _ _
    | r :: rs =>
      rw [trimR_cons_of_ne_nil c (by rw [hr]; simp)]
      rcases List.mem_cons.mp h with rfl | h
      · exact List.mem_cons_self _ _
      · exact List.mem_cons_of_mem _ (ih h)

theorem mem_trim_of {x : Char} (hx : isWs x = false) {l : List Char}
    (h : x ∈ l) : x ∈ trim l :=
  mem_trimR_of hx (mem_trimL_of hx h)

/-! ### Facts about the OCR-repair and paragraph scans -/

theorem fixPunct_cons3 (p : Char) (lc rc : Char → Bool) (a b d : Char)
    (rest : List Char) :
    fixPunct p lc rc (a :: b :: d :: rest) =
      if lc a && b = p && rc d then a :: p :: ' ' :: d :: fixPunct p lc rc rest
      else a :: fixPunct p lc rc (b :: d :: rest) := rfl

theorem fixPunct_short (p : Char) (lc rc : Char → Bool) {l : List Char}
    (h : l.length ≤ 2) : fixPunct p lc rc l = l := by
  match l with
  | [] => rfl
  | [a] => rfl
  | [a, b] => rfl
  | a :: b :: d :: rest => simp at h

theorem fixPunct_take2 (p : Char) (lc rc : Char → Bool) :
    ∀ l : List Char, (fixPunct p lc rc l).take 2 = l.take 2 := by
  intro l
  induction l using fixPunct.induct p lc rc with
  | case1 a b d rest hc ih =>
    rw [fixPunct_cons3, if_pos hc]
    have hb : b = p := by
      simp only [Bool.and_eq_true, decide_eq_true_eq] at hc
      exact hc.1.2
    rw [hb]
    rfl
  | case2 a b d rest hc ih =>
    rw [fixPunct_cons3, if_neg hc]
    have h1 : (fixPunct p lc rc (b :: d :: rest)).take 1 = [b] := by
      have := congrArg (List.take 1) ih
      rw [List.take_take, List.take_take] at this
      simpa using this
    simp only [List.take_succ_cons, List.take_zero]
    rw [h1]
  | case3 l hl =>
    match l, hl with
    | [], _ => rfl
    | [a], _ => rfl
    | [a, b], _ => rfl
    | a :: b :: d :: rest, hl => exact absurd rfl (hl a b d rest)

theorem startsTwo_take2 (b : Char) (m : List Char) :
    startsTwo b m = startsTwo b (m.take 2) := by
  match m with
  | [] => rfl
  | [x] => rfl
  | x :: y :: t => rfl

theorem startsTwo_fixPunct (p : Char) (lc rc : Char → Bool) (b : Char)
    (l : List Char) : startsTwo b (fixPunct p lc rc l) = startsTwo b l := by
  rw [startsTwo_take2 b (fixPunct p lc rc l), fixPunct_take2,
    ← startsTwo_take2]

theorem hasTriple_fixPunct {p : Char} {lc rc : Char → Bool}
    (hp : p ≠ ' ') (hlc : lc ' ' = false) (hrc : rc ' ' = false) :
    ∀ l, hasTriple ' ' (fixPunct p lc rc l) = true →
      hasTriple ' ' l = true := by
  intro l
  induction l using fixPunct.induct p lc rc with
  | case1 a b d rest hc ih =>
    intro h
    rw [fixPunct_cons3, if_pos hc] at h
    simp only [Bool.and_eq_true, decide_eq_true_eq] at hc
    have ha : a ≠ ' ' := fun he => by rw [he, hlc] at hc; simp at hc
    have hd : d ≠ ' ' := fun he => by rw [he, hrc] at hc; simp at hc
    rw [hasTriple_cons_ne _ ha, hasTriple_cons_ne _ hp] at h
    rw [hasTriple_cons] at h
    have hst : startsTwo ' ' (d :: fixPunct p lc rc rest) = false := by
      match hF : fixPunct p lc rc rest with
      | [] => simp [startsTwo]
      | f :: fs => rw [startsTwo_cons_cons]; simp [hd]
    rw [hst] at h
    simp only [Bool.and_false, Bool.false_or] at h
    rw [hasTriple_cons_ne _ hd] at h
    have := ih h
    exact hasTriple_of_tail (hasTriple_of_tail (hasTriple_of_tail this))
  | case2 a b d rest hc ih =>
    intro h
    rw [fixPunct_cons3, if_neg hc, hasTriple_cons, startsTwo_fixPunct] at h
    rw [hasTriple_cons]
    simp only [Bool.or_eq_true] at h ⊢
    rcases h with h | h
    · exact Or.inl h
    · exact Or.inr (ih h)
  | case3 l hl =>
    intro h
    have hlen : l.length ≤ 2 := by
      match l, hl with
      | [], _ => simp
      | [a], _ => simp
      | [a, b], _ => simp
      | a :: b :: d :: rest, hl => exact absurd rfl (hl a b d rest)
    rw [fixPunct_short p lc rc hlen] at h
    exact h

theorem fixPunct_eq_of_no_p {p : Char} (lc rc : Char → Bool) :
    ∀ {l : List Char}, (∀ x ∈ l, x ≠ p) → fixPunct p lc rc l = l := by
  intro l
  induction l using fixPunct.induct p lc rc with
  | case1 a b d rest hc ih =>
    intro h
    simp only [Bool.and_eq_true, decide_eq_true_eq] at hc
    exact absurd hc.1.2 (h b (List.mem_cons_of_mem _ (List.mem_cons_self _ _)))
  | case2 a b d rest hc ih =>
    intro h
    rw [fixPunct_cons3, if_neg hc, ih (fun x hx => h x (List.mem_cons_of_mem _ hx))]
  | case3 l hl =>
    intro h
    have hlen : l.length ≤ 2 := by
      match l, hl with
      | [], _ => simp
      | [a], _ => simp
      | [a, b], _ => simp
      | a :: b :: d :: rest, hl => exact absurd rfl (hl a b d rest)
    exact fixPunct_short p lc rc hlen

theorem mem_fixPunct (p : Char) (lc rc : Char → Bool) {x : Char} :
    ∀ {l : List Char}, x ∈ l → x ∈ fixPunct p lc rc l := by
  intro l
  induction l using fixPunct.induct p lc rc with
  | case1 a b d rest hc ih =>
    intro h
    rw [fixPunct_cons3, if_pos hc]
    simp only [Bool.and_eq_true, decide_eq_true_eq] at hc
    rcases List.mem_cons.mp h with rfl | h
    · exact List.mem_cons_self _ _
    · rcases List.mem_cons.mp h with rfl | h
      · rw [hc.1.2]
        exact List.mem_cons_of_mem _ (List.mem_cons_self _ _)
      · rcases List.mem_cons.mp h with rfl | h
        · exact List.mem_cons_of_mem _ (List.mem_cons_of_mem _
            (List.mem_cons_of_mem _ (List.mem_cons_self _ _)))
        · exact List.mem_cons_of_mem _ (List.mem_cons_of_mem _
            (List.mem_cons_of_mem _ (List.mem_cons_of_mem _ (ih h))))
  | case2 a b d rest hc ih =>
    intro h
    rw [fixPunct_cons3, if_neg hc]
    rcases List.mem_cons.mp h with rfl | h
    · exact List.mem_cons_self _ _
    · exact List.mem_cons_of_mem _ (ih h)
  | case3 l hl =>
    intro h
    have hlen : l.length ≤ 2 := by
      match l, hl with
      | [], _ => simp
      | [a], _ => simp
      | [a, b], _ => simp
      | a :: b :: d :: rest, hl => exact absurd rfl (hl a b d rest)
    rw [fixPunct_short p lc rc hlen]
    exact h

theorem paraBreaks_cons3 (a b d : Char) (rest : List Char) :
    paraBreaks (a :: b :: d :: rest) =
      if isSentEnd a && b = '\n' && isUpperAscii d then
        a :: '\n' :: '\n' :: paraBreaks (d :: rest)
      else a :: paraBreaks (b :: d :: rest) := rfl

theorem paraBreaks_short {l : List Char} (h : l.length ≤ 2) :
    paraBreaks l = l := by
  match l with
  | [] => rfl
  | [a] => rfl
  | [a, b] => rfl
  | a :: b :: d :: rest => simp at h

theorem paraBreaks_take2 :
    ∀ l : List Char, (paraBreaks l).take 2 = l.take 2 := by
  intro l
  induction l using paraBreaks.induct with
  | case1 a b d rest hc ih =>
    rw [paraBreaks_cons3, if_pos hc]
    simp only [Bool.and_eq_true, decide_eq_true_eq] at hc
    rw [hc.1.2]
    rfl
  | case2 a b d rest hc ih =>
    rw [paraBreaks_cons3, if_neg hc]
    have h1 : (paraBreaks (b :: d :: rest)).take 1 = [b] := by
      have := congrArg (List.take 1) ih
      rw [List.take_take, List.take_take] at this
      simpa using this
    simp only [List.take_succ_cons, List.take_zero]
    rw [h1]
  | case3 l hl =>
    match l, hl with
    | [], _ => rfl
    | [a], _ => rfl
    | [a, b], _ => rfl
    | a :: b :: d :: rest, hl => exact absurd rfl (hl a b d rest)

theorem startsTwo_paraBreaks (b : Char) (l : List Char) :
    startsTwo b (paraBreaks l) = startsTwo b l := by
  rw [startsTwo_take2 b (paraBreaks l), paraBreaks_take2, ← startsTwo_take2]

theorem hasTriple_paraBreaks :
    ∀ l, hasTriple ' ' (paraBreaks l) = true → hasTriple ' ' l = true := by
  intro l
  induction l using paraBreaks.induct with
  | case1 a b d rest hc ih =>
    intro h
    rw [paraBreaks_cons3, if_pos hc] at h
    simp only [Bool.and_eq_true, decide_eq_true_eq] at hc
    have ha : a ≠ ' ' := fun he => by
      rw [he] at hc
      exact absurd hc.1.1 (by decide)
    have hnl : ('\n' : Char) ≠ ' ' := by decide
    rw [hasTriple_cons_ne _ ha, hasTriple_cons_ne _ hnl,
      hasTriple_cons_ne _ hnl] at h
    have := ih h
    have hd : hasTriple ' ' (d :: rest) = true := this
    exact hasTriple_of_tail (hasTriple_of_tail hd)
  | case2 a b d rest hc ih =>
    intro h
    rw [paraBreaks_cons3, if_neg hc, hasTriple_cons, startsTwo_paraBreaks] at h
    rw [hasTriple_cons]
    simp only [Bool.or_eq_true] at h ⊢
    rcases h with h | h
    · exact Or.inl h
    · exact Or.inr (ih h)
  | case3 l hl =>
    intro h
    have hlen : l.length ≤ 2 := by
      match l, hl with
      | [], _ => simp
      | [a], _ => simp
      | [a, b], _ => simp
      | a :: b :: d :: rest, hl => exact absurd rfl (hl a b d rest)
    rw [paraBreaks_short hlen] at h
    exact h

theorem paraBreaks_eq_of_no_sentEnd :
    ∀ {l : List Char}, (∀ x ∈ l, isSentEnd x = false) → paraBreaks l = l := by
  intro l
  induction l using paraBreaks.induct with
  | case1 a b d rest hc ih =>
    intro h
    simp only [Bool.and_eq_true, decide_eq_true_eq] at hc
    rw [h a (List.mem_cons_self _ _)] at hc
    exact absurd hc.1.1 (by simp)
  | case2 a b d rest hc ih =>
    intro h
    rw [paraBreaks_cons3, if_neg hc,
      ih (fun x hx => h x (List.mem_cons_of_mem _ hx))]
  | case3 l hl =>
    intro h
    have hlen : l.length ≤ 2 := by
      match l, hl with
      | [], _ => simp
      | [a], _ => simp
      | [a, b], _ => simp
      | a :: b :: d :: rest, hl => exact absurd rfl (hl a b d rest)
    exact paraBreaks_short hlen

theorem mem_paraBreaks {x : Char} :
    ∀ {l : List Char}, x ∈ l → x ∈ paraBreaks l := by
  intro l
  induction l using paraBreaks.induct with
  | case1 a b d rest hc ih =>
    intro h
    rw [paraBreaks_cons3, if_pos hc]
    simp only [Bool.and_eq_true, decide_eq_true_eq] at hc
    rcases List.mem_cons.mp h with rfl | h
    · exact List.mem_cons_self _ _
    · rcases List.mem_cons.mp h with rfl | h
      · rw [hc.1.2]
        exact List.mem_cons_of_mem _ (List.mem_cons_self _ _)
      · exact List.mem_cons_of_mem _ (List.mem_cons_of_mem _
          (List.mem_cons_of_mem _ (ih (by
            rcases List.mem_cons.mp h with rfl | h
            · exact List.mem_cons_self _ _
            · exact List.mem_cons_of_mem _ h))))
  | case2 a b d rest hc ih =>
    intro h
    rw [paraBreaks_cons3, if_neg hc]
    rcases List.mem_cons.mp h with rfl | h
    · exact List.mem_cons_self _ _
    · exact List.mem_cons_of_mem _ (ih h)
  | case3 l hl =>
    intro h
    have hlen : l.length ≤ 2 := by
      match l, hl with
      | [], _ => simp
      | [a], _ => simp
      | [a, b], _ => simp
      | a :: b :: d :: rest, hl => exact absurd rfl (hl a b d rest)
    rw [paraBreaks_short hlen]
    exact h

/-! ### Facts about line splitting and joining -/

theorem splitNl_nil : splitNl [] = [[]] := rfl

theorem splitNl_nl (rest : List Char) :
    splitNl ('\n' :: rest) = [] :: splitNl rest := rfl

theorem splitNl_cons_ne {c : Char} (hc : c ≠ '\n') (rest : List Char)
    {L : List Char} {Ls : List (List Char)} (h : splitNl rest = L :: Ls) :
    splitNl (c :: rest) = (c :: L) :: Ls := by
  conv_lhs => rw [splitNl.eq_def]
  split
  · rename_i heq
    simp at heq
  · rename_i r heq
    obtain ⟨h1, h2⟩ := List.cons.inj heq
    exact absurd h1 hc
  · rename_i c2 rest2 hx heq
    obtain ⟨h1, h2⟩ := List.cons.inj heq
    subst h1
    subst h2
    rw [h]

theorem splitNl_ne_nil : ∀ l : List Char, splitNl l ≠ [] := by
  intro l
  induction l with
  | nil => simp [splitNl_nil]
  | cons c rest ih =>
    by_cases hc : c = '\n'
    · subst hc
      simp [splitNl_nl]
    · match hs : splitNl rest with
      | [] => exact absurd hs ih
      | L :: Ls =>
        rw [splitNl_cons_ne hc rest hs]
        simp

theorem splitNl_no_nl :
    ∀ {l : List Char}, (∀ x ∈ l, x ≠ '\n') → splitNl l = [l] := by
  intro l
  induction l with
  | nil => intro _; rfl
  | cons c rest ih =>
    intro h
    have hc : c ≠ '\n' := h c (List.mem_cons_self _ _)
    have hrest := ih (fun x hx => h x (List.mem_cons_of_mem _ hx))
    rw [splitNl_cons_ne hc rest hrest]

theorem splitNl_append_nl {pre : List Char} (rest : List Char)
    (hpre : ∀ x ∈ pre, x ≠ '\n') :
    splitNl (pre ++ '\n' :: rest) = pre :: splitNl rest := by
  induction pre with
  | nil => simp [splitNl_nl]
  | cons c p ih =>
    have hc : c ≠ '\n' := hpre c (List.mem_cons_self _ _)
    have hp := ih (fun x hx => hpre x (List.mem_cons_of_mem _ hx))
    rw [List.cons_append, splitNl_cons_ne hc _ hp]

theorem joinNl_nil : joinNl [] = [] := rfl

theorem joinNl_single (L : List Char) : joinNl [L] = L := rfl

theorem joinNl_cons2 (L M : List Char) (Ms : List (List Char)) :
    joinNl (L :: M :: Ms) = L ++ '\n' :: joinNl (M :: Ms) := rfl

theorem joinNl_splitNl : ∀ l : List Char, joinNl (splitNl l) = l := by
  intro l
  induction l with
  | nil => rfl
  | cons c rest ih =>
    by_cases hc : c = '\n'
    · subst hc
      rw [splitNl_nl]
      match hs : splitNl rest with
      | [] => exact absurd hs (splitNl_ne_nil rest)
      | L :: Ls =>
        rw [hs] at ih
        rw [joinNl_cons2, List.nil_append, ih]
    · match hs : splitNl rest with
      | [] => exact absurd hs (splitNl_ne_nil rest)
      | L :: Ls =>
        rw [hs] at ih
        rw [splitNl_cons_ne hc rest hs]
        match Ls with
        | [] =>
          rw [joinNl_single] at ih
          rw [joinNl_single, ih]
        | M :: Ms =>
          rw [joinNl_cons2] at ih
          rw [joinNl_cons2, List.cons_append, ih]

theorem splitNl_joinNl :
    ∀ (Ls : List (List Char)), Ls ≠ [] →
      (∀ L ∈ Ls, ∀ x ∈ L, x ≠ '\n') → splitNl (joinNl Ls) = Ls := by
  intro Ls
  induction Ls with
  | nil => intro h; exact absurd rfl h
  | cons L Ms ih =>
    intro _ h
    match Ms with
    | [] =>
      rw [joinNl_single]
      exact splitNl_no_nl (h L (List.mem_cons_self _ _))
    | M :: Ms2 =>
      rw [joinNl_cons2,
        splitNl_append_nl _ (h L (List.mem_cons_self _ _)),
        ih (by simp) (fun K hK => h K (List.mem_cons_of_mem _ hK))]

theorem mem_of_mem_splitNl {x : Char} :
    ∀ {l : List Char} {L : List Char}, L ∈ splitNl l → x ∈ L → x ∈ l := by
  intro l
  induction l with
  | nil =>
    intro L hL hx
    rw [splitNl_nil] at hL
    simp at hL
    rw [hL] at hx
    simp at hx
  | cons c rest ih =>
    intro L hL hx
    by_cases hc : c = '\n'
    · subst hc
      rw [splitNl_nl] at hL
      rcases List.mem_cons.mp hL with rfl | hL
      · simp at hx
      · exact List.mem_cons_of_mem _ (ih hL hx)
    · match hs : splitNl rest with
      | [] => exact absurd hs (splitNl_ne_nil rest)
      | K :: Ks =>
        rw [splitNl_cons_ne hc rest hs] at hL
        rcases List.mem_cons.mp hL with rfl | hL
        · rcases List.mem_cons.mp hx with rfl | hx
          · exact List.mem_cons_self _ _
          · exact List.mem_cons_of_mem _
              (ih (by rw [hs]; exact List.mem_cons_self _ _) hx)
        · exact List.mem_cons_of_mem _
            (ih (by rw [hs]; exact List.mem_cons_of_mem _ hL) hx)

theorem no_nl_of_mem_splitNl :
    ∀ {l : List Char} {L : List Char}, L ∈ splitNl l →
      ∀ x ∈ L, x ≠ '\n' := by
  intro l
  induction l with
  | nil =>
    intro L hL
    rw [splitNl_nil] at hL
    simp at hL
    intro x hx
    rw [hL] at hx
    simp at hx
  | cons c rest ih =>
    intro L hL
    by_cases hc : c = '\n'
    · subst hc
      rw [splitNl_nl] at hL
      rcases List.mem_cons.mp hL with rfl | hL
      · intro x hx
        simp at hx
      · exact ih hL
    · match hs : splitNl rest with
      | [] => exact absurd hs (splitNl_ne_nil rest)
      | K :: Ks =>
        rw [splitNl_cons_ne hc rest hs] at hL
        rcases List.mem_cons.mp hL with rfl | hL
        · intro x hx
          rcases List.mem_cons.mp hx with rfl | hx
          · exact hc
          · exact ih (by rw [hs]; exact List.mem_cons_self _ _) x hx
        · exact ih (by rw [hs]; exact List.mem_cons_of_mem _ hL)

theorem mem_joinNl {x : Char} :
    ∀ {Ls : List (List Char)}, x ∈ joinNl Ls →
      x = '\n' ∨ ∃ L ∈ Ls, x ∈ L := by
  intro Ls
  induction Ls with
  | nil => intro h; simp [joinNl_nil] at h
  | cons L Ms ih =>
    intro h
    match Ms with
    | [] =>
      rw [joinNl_single] at h
      exact Or.inr ⟨L, List.mem_cons_self _ _, h⟩
    | M :: Ms2 =>
      rw [joinNl_cons2] at h
      rcases List.mem_append.mp h with h | h
      · exact Or.inr ⟨L, List.mem_cons_self _ _, h⟩
      · rcases List.mem_cons.mp h with rfl | h
        · exact Or.inl rfl
        · rcases ih h with h | ⟨K, hK, hx⟩
          · exact Or.inl h
          · exact Or.inr ⟨K, List.mem_cons_of_mem _ hK, hx⟩

theorem mem_joinNl_of_mem {x : Char} {L : List Char} :
    ∀ {Ls : List (List Char)}, L ∈ Ls → x ∈ L → x ∈ joinNl Ls := by
  intro Ls
  induction Ls with
  | nil => intro h; simp at h
  | cons K Ms ih =>
    intro hL hx
    match Ms with
    | [] =>
      rw [joinNl_single]
      rcases List.mem_cons.mp hL with rfl | hL
      · exact hx
      · simp at hL
    | M :: Ms2 =>
      rw [joinNl_cons2]
      rcases List.mem_cons.mp hL with rfl | hL
      · exact List.mem_append_left _ hx
      · exact List.mem_append_right _ (List.mem_cons_of_mem _ (ih hL hx))

end Transcribe

namespace Transcribe

/-! ### Line decomposition and the whitespace laws of the formatter -/

theorem nl_decomp (l : List Char) :
    (∀ x ∈ l, x ≠ '\n') ∨
      ∃ pre rest, l = pre ++ '\n' :: rest ∧ ∀ x ∈ pre, x ≠ '\n' := by
  induction l with
  | nil =>
    left
    simp
  | cons c t ih =>
    by_cases hc : c = '\n'
    · right
      exact ⟨[], t, by rw [hc]; rfl, by simp⟩
    · rcases ih with h | ⟨pre, rest, rfl, hpre⟩
      · left
        intro x hx
        rcases List.mem_cons.mp hx with rfl | hx
        · exact hc
        · exact h x hx
      · right
        refine ⟨c :: pre, rest, rfl, ?_⟩
        intro x hx
        rcases List.mem_cons.mp hx with rfl | hx
        · exact hc
        · exact hpre x hx

theorem trimLines_no_nl {l : List Char} (h : ∀ x ∈ l, x ≠ '\n') :
    trimLines l = trim l := by
  unfold trimLines
  rw [splitNl_no_nl h]
  rfl

theorem trimLines_append_nl {pre : List Char} (rest : List Char)
    (hpre : ∀ x ∈ pre, x ≠ '\n') :
    trimLines (pre ++ '\n' :: rest) = trim pre ++ '\n' :: trimLines rest := by
  unfold trimLines
  rw [splitNl_append_nl _ hpre, List.map_cons]
  match hs : splitNl rest with
  | [] => exact absurd hs (splitNl_ne_nil rest)
  | K :: Ks => rw [List.map_cons, joinNl_cons2]

theorem hasTriple_space_trimLines :
    ∀ (n : Nat) (l : List Char), l.length ≤ n →
      hasTriple ' ' (trimLines l) = true → hasTriple ' ' l = true := by
  intro n
  induction n with
  | zero =>
    intro l hl h
    match l, hl with
    | [], _ =>
      rw [trimLines_no_nl (by simp)] at h
      simpa using h
  | succ n ih =>
    intro l hl h
    rcases nl_decomp l with hno | ⟨pre, rest, rfl, hpre⟩
    · rw [trimLines_no_nl hno] at h
      exact hasTriple_trim h
    · rw [trimLines_append_nl rest hpre] at h
      have hsep : ('\n' : Char) ≠ ' ' := by decide
      rw [hasTriple_append_sep _ _ hsep] at h
      rw [hasTriple_append_sep _ _ hsep]
      simp only [Bool.or_eq_true] at h ⊢
      rcases h with h | h
      · exact Or.inl (hasTriple_trim h)
      · refine Or.inr (ih rest ?_ h)
        have := congrArg List.length (rfl : pre ++ '\n' :: rest = pre ++ '\n' :: rest)
        have hlen : (pre ++ '\n' :: rest).length = pre.length + 1 + rest.length := by
          simp [List.length_append]
          omega
        omega

theorem formatTranscript_eq (text : List Char) (h : ¬ trim text = []) :
    formatTranscript text =
      trim (trimLines (paraBreaks (fixPunct ':' isLowerAscii isLowerAscii
        (fixPunct ',' isLowerAscii isLowerAscii
          (fixPunct '.' isLowerAscii isUpperAscii
            (collapseNewlines (collapseSpaces (expandTabs (crlfToLf text))))))))) := by
  unfold formatTranscript
  rw [if_neg h]

/-- The formatter output never contains three consecutive spaces. -/
theorem noTripleSpace_format (l : List Char) :
    hasTriple ' ' (formatTranscript l) = false := by
  by_cases hg : trim l = []
  · unfold formatTranscript
    rw [if_pos hg]
    rfl
  · rw [formatTranscript_eq l hg]
    apply Bool.eq_false_iff.mpr
    intro h
    have h2 := hasTriple_trim h
    have h3 := hasTriple_space_trimLines _ _ (Nat.le_refl _) h2
    have h4 := hasTriple_paraBreaks _ h3
    have h5 := hasTriple_fixPunct (by decide) (by decide) (by decide) _ h4
    have h6 := hasTriple_fixPunct (by decide) (by decide) (by decide) _ h5
    have h7 := hasTriple_fixPunct (by decide) (by decide) (by decide) _ h6
    have h8 := hasTriple_collapseRuns_other (by decide) _ 0 h7
    have h9 := hasTriple_collapseRuns_self ' '
      (expandTabs (crlfToLf l)) 0
    rw [show collapseSpaces (expandTabs (crlfToLf l)) =
      collapseRuns ' ' (expandTabs (crlfToLf l)) 0 from rfl] at h8
    rw [h8] at h9
    exact Bool.noConfusion h9

end Transcribe

namespace Transcribe

/-! ### A class of inputs on which the formatter is idempotent -/

/-- Characters that trigger none of the character-rewriting rules: no
carriage return, no tab, and no punctuation used by the repair and
paragraph rules. -/
def goodChar (c : Char) : Bool :=
  !(c = '\r' || c = '\t' || c = ',' || c = ':' ||
    c = '.' || c = '!' || c = '?')

/-- A line is acceptable when it is empty or contains a non-whitespace
character, so that per-line trimming cannot turn it into a fresh empty
line. -/
def okLine (L : List Char) : Bool := L.isEmpty || !(trim L).isEmpty

/-- Every line of the string is acceptable. -/
def linesOk (l : List Char) : Bool := (splitNl l).all okLine

/-- The input class of the idempotence theorem: only rule-free characters
and no whitespace-only nonempty line. -/
def tame (l : List Char) : Bool := l.all goodChar && linesOk l

/-- Every line of the string is already trimmed. -/
def linesTrimmed (l : List Char) : Bool :=
  (splitNl l).all (fun L => trim L == L)

theorem goodChar_spec {c : Char} (h : goodChar c = true) :
    c ≠ '\r' ∧ c ≠ '\t' ∧ c ≠ ',' ∧ c ≠ ':' ∧ c ≠ '.' ∧ c ≠ '!' ∧ c ≠ '?' := by
  unfold goodChar at h
  simp only [Bool.not_eq_true', Bool.or_eq_false_iff, decide_eq_false_iff_not] at h
  exact ⟨h.1.1.1.1.1.1, h.1.1.1.1.1.2, h.1.1.1.1.2, h.1.1.1.2, h.1.1.2, h.1.2, h.2⟩

theorem isSentEnd_eq_false_of_good {c : Char} (h : goodChar c = true) :
    isSentEnd c = false := by
  obtain ⟨-, -, -, -, h5, h6, h7⟩ := goodChar_spec h
  unfold isSentEnd
  simp [h5, h6, h7]

theorem crlfToLf_eq_of_no_cr :
    ∀ {l : List Char}, (∀ x ∈ l, x ≠ '\r') → crlfToLf l = l := by
  intro l
  induction l with
  | nil => intro _; rfl
  | cons c rest ih =>
    intro h
    have hc : c ≠ '\r' := h c (List.mem_cons_self _ _)
    rw [crlfToLf_cons_ne c rest (fun r hcr _ => hc hcr),
      ih (fun x hx => h x (List.mem_cons_of_mem _ hx))]

theorem expandTabs_eq_of_no_tab :
    ∀ {l : List Char}, (∀ x ∈ l, x ≠ '\t') → expandTabs l = l := by
  intro l
  induction l with
  | nil => intro _; rfl
  | cons c rest ih =>
    intro h
    have hc : c ≠ '\t' := h c (List.mem_cons_self _ _)
    rw [expandTabs_cons_ne c rest hc,
      ih (fun x hx => h x (List.mem_cons_of_mem _ hx))]

theorem length_trimL_le (l : List Char) : (trimL l).length ≤ l.length := by
  obtain ⟨s, hs⟩ := trimL_suffix l
  have := congrArg List.length hs
  rw [List.length_append] at this
  omega

theorem length_trimR_le (l : List Char) : (trimR l).length ≤ l.length := by
  obtain ⟨t, ht⟩ := trimR_prefix l
  have := congrArg List.length ht
  rw [List.length_append] at this
  omega

theorem trim_eq_self_parts {y : List Char} (h : trim y = y) :
    trimL y = y ∧ trimR y = y := by
  have h1 : (trim y).length = y.length := by rw [h]
  unfold trim at h1
  have h2 := length_trimR_le (trimL y)
  have h3 := length_trimL_le y
  have hL : (trimL y).length = y.length := by omega
  obtain ⟨s, hs⟩ := trimL_suffix y
  have hslen : s.length = 0 := by
    have := congrArg List.length hs
    rw [List.length_append] at this
    omega
  have hsnil : s = [] := List.length_eq_zero.mp hslen
  rw [hsnil, List.nil_append] at hs
  constructor
  · exact hs
  · have : trim y = trimR y := by
      unfold trim
      rw [hs]
    rw [← this, h]

end Transcribe

namespace Transcribe

/-! ### Transport of line structure through the collapse scans -/

theorem splitNl_replicate_nl (X : List Char) :
    ∀ i, splitNl (List.replicate i '\n' ++ X) =
      List.replicate i [] ++ splitNl X := by
  intro i
  induction i with
  | zero => simp
  | succ i ih =>
    rw [List.replicate_succ, List.cons_append, splitNl_nl, ih,
      List.replicate_succ, List.cons_append]

theorem collapseRuns_no_c_append {c : Char} {xs : List Char} (ys : List Char)
    (h : ∀ x ∈ xs, x ≠ c) :
    collapseRuns c (xs ++ ys) 0 = xs ++ collapseRuns c ys 0 := by
  induction xs with
  | nil => rfl
  | cons x t ih =>
    have hx : x ≠ c := h x (List.mem_cons_self _ _)
    rw [List.cons_append, collapseRuns_cons, if_neg hx, emitRun_zero,
      List.nil_append, ih (fun y hy => h y (List.mem_cons_of_mem _ hy)),
      List.cons_append]

theorem collapseRuns_replicate (c : Char) (ys : List Char) :
    ∀ (j k : Nat), collapseRuns c (List.replicate j c ++ ys) k =
      collapseRuns c ys (k + j) := by
  intro j
  induction j with
  | zero => intro k; simp
  | succ j ih =>
    intro k
    rw [List.replicate_succ, List.cons_append, collapseRuns_cons, if_pos rfl,
      ih (k + 1)]
    congr 1
    omega

theorem collapseRuns_cons0_ne {c a : Char} (t : List Char) (h : a ≠ c) :
    collapseRuns c (a :: t) 0 = a :: collapseRuns c t 0 := by
  rw [collapseRuns_cons, if_neg h, emitRun_zero, List.nil_append]

theorem mem_collapseSpaces_ne_nl {x : Char} {l : List Char}
    (hl : ∀ y ∈ l, y ≠ '\n') (h : x ∈ collapseSpaces l) : x ≠ '\n' := by
  rcases mem_collapseRuns h with rfl | h
  · decide
  · exact hl x h

theorem lines_collapseSpaces :
    ∀ (n : Nat) (l : List Char), l.length ≤ n →
      splitNl (collapseSpaces l) = (splitNl l).map collapseSpaces := by
  intro n
  induction n with
  | zero =>
    intro l hl
    match l, hl with
    | [], _ => rfl
  | succ n ih =>
    intro l hl
    rcases nl_decomp l with hno | ⟨pre, rest, rfl, hpre⟩
    · rw [splitNl_no_nl hno, List.map_cons, List.map_nil,
        splitNl_no_nl (fun x hx => mem_collapseSpaces_ne_nl hno hx)]
    · have hsep : ('\n' : Char) ≠ ' ' := by decide
      rw [show collapseSpaces (pre ++ '\n' :: rest) =
          collapseSpaces pre ++ '\n' :: collapseSpaces rest from
          collapseRuns_append_sep hsep pre rest 0,
        splitNl_append_nl _ (fun x hx => mem_collapseSpaces_ne_nl hpre hx),
        splitNl_append_nl _ hpre, List.map_cons]
      have hlen : rest.length ≤ n := by
        rw [List.length_append, List.length_cons] at hl
        omega
      rw [ih rest hlen]

theorem okLine_nil : okLine [] = true := rfl

theorem okLine_spec {L : List Char} (h : okLine L = true) (hne : L ≠ []) :
    trim L ≠ [] := by
  unfold okLine at h
  rcases Bool.or_eq_true_iff.mp h with h | h
  · exact absurd (List.isEmpty_iff.mp h) hne
  · simpa using h

theorem okLine_of_trim_ne {L : List Char} (h : trim L ≠ []) :
    okLine L = true := by
  unfold okLine
  have : (trim L).isEmpty = false := by
    match hL : trim L with
    | [] => exact absurd hL h
    | x :: t => rfl
  rw [this]
  simp

theorem exists_nonWs_of_trim_ne {L : List Char} (h : trim L ≠ []) :
    ∃ c ∈ L, isWs c = false := by
  by_contra hc
  push_neg at hc
  have : ∀ c ∈ L, isWs c = true := by
    intro c hcL
    have := hc c hcL
    match hw : isWs c with
    | true => rfl
    | false => exact absurd hw this
  exact h (trim_eq_nil_iff.mpr this)

theorem trim_ne_of_exists_nonWs {L : List Char} {c : Char} (hc : c ∈ L)
    (hw : isWs c = false) : trim L ≠ [] := by
  intro h
  have := trim_eq_nil_iff.mp h c hc
  rw [hw] at this
  exact Bool.noConfusion this

theorem okLine_collapseSpaces {L : List Char} (h : okLine L = true) :
    okLine (collapseSpaces L) = true := by
  match L with
  | [] => rfl
  | x :: K =>
    have h2 : trim (x :: K) ≠ [] := okLine_spec h (by simp)
    obtain ⟨c, hcL, hcw⟩ := exists_nonWs_of_trim_ne h2
    have hcs : c ≠ ' ' := by
      intro he
      rw [he] at hcw
      exact Bool.noConfusion hcw
    have : c ∈ collapseSpaces (x :: K) := mem_collapseRuns_of hcs hcL
    exact okLine_of_trim_ne (trim_ne_of_exists_nonWs this hcw)

theorem linesOk_collapseSpaces {l : List Char} (h : linesOk l = true) :
    linesOk (collapseSpaces l) = true := by
  unfold linesOk at h ⊢
  rw [lines_collapseSpaces l.length l (Nat.le_refl _), List.all_map]
  rw [List.all_eq_true] at h ⊢
  intro L hL
  exact okLine_collapseSpaces (h L hL)

end Transcribe

namespace Transcribe

theorem dropWhile_head_not {p : Char → Bool} :
    ∀ {l : List Char} {a : Char} {t : List Char},
      l.dropWhile p = a :: t → p a = false := by
  intro l
  induction l with
  | nil => intro a t h; simp at h
  | cons c rest ih =>
    intro a t h
    rw [List.dropWhile_cons] at h
    by_cases hc : p c
    · rw [if_pos hc] at h
      exact ih h
    · rw [if_neg hc] at h
      obtain ⟨h1, h2⟩ := List.cons.inj h
      rw [← h1]
      match hpc : p c with
      | true => exact absurd hpc hc
      | false => rfl

/-- Decomposition at the first maximal newline run. -/
theorem nl_run_decomp (l : List Char) :
    (∀ x ∈ l, x ≠ '\n') ∨
      ∃ pre j tail,
        l = pre ++ '\n' :: (List.replicate j '\n' ++ tail) ∧
        (∀ x ∈ pre, x ≠ '\n') ∧ (∀ t, tail ≠ '\n' :: t) := by
  rcases nl_decomp l with h | ⟨pre, rest, rfl, hpre⟩
  · exact Or.inl h
  · right
    refine ⟨pre, (rest.takeWhile (fun x => x = '\n')).length,
      rest.dropWhile (fun x => x = '\n'), ?_, hpre, ?_⟩
    · have hrepl : rest.takeWhile (fun x => x = '\n') =
          List.replicate (rest.takeWhile (fun x => x = '\n')).length '\n' := by
        rw [List.eq_replicate_iff]
        refine ⟨rfl, ?_⟩
        intro b hb
        have := List.mem_takeWhile_imp hb
        simpa using this
      conv_lhs => rw [← List.takeWhile_append_dropWhile
        (p := fun x => x = '\n') (l := rest)]
      rw [← hrepl]
    · intro t ht
      have := dropWhile_head_not (p := fun x => x = '\n') ht
      simp at this

/-- The collapse of the first newline run. -/
theorem collapseNewlines_run {pre : List Char} {j : Nat} {tail : List Char}
    (hpre : ∀ x ∈ pre, x ≠ '\n') (htail : ∀ t, tail ≠ '\n' :: t) :
    collapseNewlines (pre ++ '\n' :: (List.replicate j '\n' ++ tail)) =
      pre ++ emitRun '\n' (j + 1) ++ collapseNewlines tail := by
  unfold collapseNewlines
  rw [collapseRuns_no_c_append _ hpre, collapseRuns_cons, if_pos rfl,
    collapseRuns_replicate]
  match tail, htail with
  | [], _ =>
    rw [collapseRuns_nil]
    show pre ++ emitRun '\n' (1 + j) = pre ++ emitRun '\n' (j + 1) ++ []
    rw [List.append_nil, Nat.add_comm]
  | a :: t, htail =>
    have ha : a ≠ '\n' := fun he => htail t (by rw [he])
    rw [collapseRuns_cons, if_neg ha, collapseRuns_cons0_ne t ha]
    rw [Nat.add_comm 1 j, List.append_assoc]

theorem emitRun_eq_replicate (c : Char) (k : Nat) :
    emitRun c k = List.replicate (if 3 ≤ k then 2 else k) c := by
  unfold emitRun
  by_cases h : 3 ≤ k
  · rw [if_pos h, if_pos h]
    rfl
  · rw [if_neg h, if_neg h]

/-- Lines of the collapse output at the first newline run. -/
theorem splitNl_emit_append {pre : List Char} (X : List Char) {m : Nat}
    (hpre : ∀ x ∈ pre, x ≠ '\n') (hm : 1 ≤ m) :
    splitNl (pre ++ List.replicate m '\n' ++ X) =
      pre :: (List.replicate (m - 1) [] ++ splitNl X) := by
  match m, hm with
  | m + 1, _ =>
    rw [List.replicate_succ, List.append_assoc, List.cons_append,
      splitNl_append_nl _ hpre, splitNl_replicate_nl]
    simp

theorem linesOk_append_parts {pre : List Char} {j : Nat} {tail : List Char}
    (hpre : ∀ x ∈ pre, x ≠ '\n') :
    linesOk (pre ++ '\n' :: (List.replicate j '\n' ++ tail)) =
      (okLine pre && linesOk tail) := by
  unfold linesOk
  rw [show ('\n' :: (List.replicate j '\n' ++ tail)) =
      List.replicate (j + 1) '\n' ++ tail by
    rw [List.replicate_succ, List.cons_append],
    ← List.append_assoc,
    splitNl_emit_append tail hpre (by omega)]
  rw [List.all_cons, List.all_append, List.all_replicate]
  simp [okLine_nil]

theorem linesOk_collapseNewlines :
    ∀ (n : Nat) (l : List Char), l.length ≤ n → linesOk l = true →
      linesOk (collapseNewlines l) = true := by
  intro n
  induction n with
  | zero =>
    intro l hl h
    match l, hl with
    | [], _ => exact h
  | succ n ih =>
    intro l hl h
    rcases nl_run_decomp l with hno | ⟨pre, j, tail, rfl, hpre, htail⟩
    · rw [show collapseNewlines l = l from collapseRuns_eq_of_no_c hno]
      exact h
    · rw [collapseNewlines_run hpre htail]
      rw [linesOk_append_parts hpre] at h
      simp only [Bool.and_eq_true] at h
      rw [emitRun_eq_replicate]
      have hm1 : 1 ≤ if 3 ≤ j + 1 then 2 else j + 1 := by
        by_cases h3 : 3 ≤ j + 1
        · rw [if_pos h3]
          omega
        · rw [if_neg h3]
          omega
      unfold linesOk
      rw [splitNl_emit_append _ (fun x hx => hpre x hx) hm1,
        List.all_cons, List.all_append, List.all_replicate]
      have hlen : tail.length ≤ n := by
        rw [List.length_append, List.length_cons, List.length_append,
          List.length_replicate] at hl
        omega
      have htl := ih tail hlen h.2
      unfold linesOk at htl
      simp [okLine_nil, h.1, htl]

end Transcribe

namespace Transcribe

theorem joinNl_head_of_ne_nil {M : List Char} (Ms : List (List Char))
    (h : M ≠ []) : (joinNl (M :: Ms)).head? = M.head? := by
  match Ms with
  | [] => rw [joinNl_single]
  | K :: Ks =>
    rw [joinNl_cons2]
    match M, h with
    | m :: t, _ => rfl

theorem head_mem {X : List Char} {y : Char} (h : X.head? = some y) :
    y ∈ X := by
  match X with
  | [] => simp at h
  | x :: t =>
    have : x = y := by simpa using h
    rw [this] at *
    exact List.mem_cons_self _ _

theorem trimLines_nil : trimLines [] = [] := rfl

theorem head_trimLines_not_nl {u : List Char} (hu : ∀ t, u ≠ '\n' :: t)
    (hok : linesOk u = true) : (trimLines u).head? ≠ some '\n' := by
  match u with
  | [] =>
    rw [trimLines_nil]
    simp
  | a :: t =>
    have ha : a ≠ '\n' := fun he => hu t (by rw [he])
    match hs : splitNl t with
    | [] => exact absurd hs (splitNl_ne_nil t)
    | K :: Ks =>
      have hsp : splitNl (a :: t) = (a :: K) :: Ks := splitNl_cons_ne ha t hs
      unfold trimLines
      rw [hsp, List.map_cons]
      have hok1 : okLine (a :: K) = true := by
        unfold linesOk at hok
        rw [hsp, List.all_cons] at hok
        simp only [Bool.and_eq_true] at hok
        exact hok.1
      have htr : trim (a :: K) ≠ [] := okLine_spec hok1 (by simp)
      rw [joinNl_head_of_ne_nil _ htr]
      intro hhd
      have hy := head_mem hhd
      have hnl : ('\n' : Char) ∈ (a :: K) := mem_trim hy
      exact no_nl_of_mem_splitNl (by rw [hsp]; exact List.mem_cons_self _ _)
        '\n' hnl rfl

theorem startsTwo_nl_trimLines {u : List Char} (hu : ∀ t, u ≠ '\n' :: t)
    (hok : linesOk u = true) : startsTwo '\n' (trimLines u) = false := by
  match hS : startsTwo '\n' (trimLines u) with
  | false => rfl
  | true =>
    obtain ⟨t, ht⟩ := startsTwo_head _ hS
    have : (trimLines u).head? = some '\n' := by rw [ht]; rfl
    exact absurd this (head_trimLines_not_nl hu hok)

theorem noTripleNl_trimLines :
    ∀ (n : Nat) (l : List Char), l.length ≤ n → linesOk l = true →
      hasTriple '\n' l = false → hasTriple '\n' (trimLines l) = false := by
  intro n
  induction n with
  | zero =>
    intro l hl hok h
    match l, hl with
    | [], _ => rw [trimLines_nil]; rfl
  | succ n ih =>
    intro l hl hok h
    rcases nl_run_decomp l with hno | ⟨pre, j, tail, rfl, hpre, htail⟩
    · rw [trimLines_no_nl hno]
      exact hasTriple_allNe (fun x hx => hno x (mem_trim hx))
    · have hj : j ≤ 1 := by
        by_contra hj2
        have h3 : 3 ≤ j + 1 := by omega
        have : hasTriple '\n'
            (pre ++ '\n' :: (List.replicate j '\n' ++ tail)) = true := by
          rw [show ('\n' :: (List.replicate j '\n' ++ tail)) =
              List.replicate (j + 1) '\n' ++ tail by
            rw [List.replicate_succ, List.cons_append]]
          exact hasTriple_append_right pre (hasTriple_replicate_ge3 h3 tail)
        rw [this] at h
        exact Bool.noConfusion h
      rw [linesOk_append_parts hpre] at hok
      simp only [Bool.and_eq_true] at hok
      obtain ⟨hokpre, hoktail⟩ := hok
      have hTail : hasTriple '\n' tail = false := by
        match hT : hasTriple '\n' tail with
        | false => rfl
        | true =>
          have : hasTriple '\n'
              (pre ++ '\n' :: (List.replicate j '\n' ++ tail)) = true := by
            rw [show pre ++ '\n' :: (List.replicate j '\n' ++ tail) =
                (pre ++ '\n' :: List.replicate j '\n') ++ tail by
              simp]
            exact hasTriple_append_right _ hT
          rw [this] at h
          exact Bool.noConfusion h
      have hlen : tail.length ≤ n := by
        rw [List.length_append, List.length_cons, List.length_append,
          List.length_replicate] at hl
        omega
      have hT := ih tail hlen hoktail hTail
      have hS := startsTwo_nl_trimLines htail hoktail
      have hH := head_trimLines_not_nl htail hoktail
      have htp : ∀ x ∈ trim pre, x ≠ '\n' :=
        fun x hx => hpre x (mem_trim hx)
      have hNT : hasTriple '\n' ('\n' :: trimLines tail) = false := by
        rw [hasTriple_cons, hS, hT]
        rfl
      match j, hj with
      | 0, _ =>
        rw [show (List.replicate 0 '\n' ++ tail) = tail by simp,
          trimLines_append_nl tail hpre, hasTriple_allNe_append _ htp]
        exact hNT
      | 1, _ =>
        rw [trimLines_append_nl _ hpre,
          show (List.replicate 1 '\n' ++ tail) = [] ++ '\n' :: tail by simp,
          trimLines_append_nl tail (by simp),
          show trim [] = [] from rfl, List.nil_append,
          hasTriple_allNe_append _ htp, hasTriple_cons, hNT]
        have hS2 : startsTwo '\n' ('\n' :: trimLines tail) = false := by
          match hTT : trimLines tail with
          | [] => rfl
          | y :: ys =>
            rw [startsTwo_cons_cons]
            have hy : y ≠ '\n' := by
              intro he
              exact hH (by rw [hTT, he]; rfl)
            have : (y = '\n' : Bool) = false := by
              simp [hy]
            simp [this]
        rw [hS2]
        rfl

end Transcribe

namespace Transcribe

/-! ### Trimmed lines stay trimmed -/

theorem beq_list_iff {a b : List Char} : (a == b) = true ↔ a = b := by
  exact beq_iff_eq

theorem linesTrimmed_trimLines (z : List Char) :
    linesTrimmed (trimLines z) = true := by
  unfold linesTrimmed
  have hsplit : splitNl (trimLines z) = (splitNl z).map trim := by
    unfold trimLines
    refine splitNl_joinNl _ ?_ ?_
    · match hs : splitNl z with
      | [] => exact absurd hs (splitNl_ne_nil z)
      | K :: Ks => simp
    · intro L hL x hx
      obtain ⟨K, hK, rfl⟩ := List.mem_map.mp hL
      exact no_nl_of_mem_splitNl hK x (mem_trim hx)
  rw [hsplit, List.all_map]
  rw [List.all_eq_true]
  intro L hL
  show (trim (trim L) == trim L) = true
  rw [beq_list_iff]
  exact trim_idem L

theorem trimLines_eq_of_linesTrimmed {y : List Char}
    (h : linesTrimmed y = true) : trimLines y = y := by
  unfold trimLines
  unfold linesTrimmed at h
  rw [List.all_eq_true] at h
  have : (splitNl y).map trim = splitNl y := by
    have := List.map_congr_left (f := trim) (g := id)
      (l := splitNl y) ?_
    · rw [this, List.map_id]
    · intro L hL
      have := h L hL
      rw [beq_list_iff] at this
      exact this
  rw [this, joinNl_splitNl]

theorem linesTrimmed_nil : linesTrimmed [] = true := by decide

theorem linesTrimmed_append_nl {pre : List Char} (rest : List Char)
    (hpre : ∀ x ∈ pre, x ≠ '\n') :
    linesTrimmed (pre ++ '\n' :: rest) =
      ((trim pre == pre) && linesTrimmed rest) := by
  unfold linesTrimmed
  rw [splitNl_append_nl _ hpre, List.all_cons]

theorem linesTrimmed_no_nl {y : List Char} (h : ∀ x ∈ y, x ≠ '\n') :
    linesTrimmed y = (trim y == y) := by
  unfold linesTrimmed
  rw [splitNl_no_nl h, List.all_cons]
  simp

theorem linesTrimmed_nl_cons (t : List Char) :
    linesTrimmed ('\n' :: t) = linesTrimmed t := by
  unfold linesTrimmed
  rw [splitNl_nl, List.all_cons]
  simp [show trim [] = [] from rfl]

theorem linesTrimmed_trimL {y : List Char} (h : linesTrimmed y = true) :
    linesTrimmed (trimL y) = true := by
  induction y with
  | nil => exact h
  | cons c t ih =>
    by_cases hnl : c = '\n'
    · subst hnl
      rw [trimL_cons, if_pos (by decide)]
      rw [linesTrimmed_nl_cons] at h
      exact ih h
    · by_cases hw : isWs c
      · exfalso
        match hs : splitNl t with
        | [] => exact absurd hs (splitNl_ne_nil t)
        | K :: Ks =>
          unfold linesTrimmed at h
          rw [splitNl_cons_ne hnl t hs, List.all_cons] at h
          simp only [Bool.and_eq_true] at h
          have htr : trim (c :: K) = c :: K := beq_list_iff.mp h.1
          have hlen : (trim (c :: K)).length < (c :: K).length := by
            have h1 : trimL (c :: K) = trimL K := by
              rw [trimL_cons, if_pos hw]
            have h2 := length_trimR_le (trimL (c :: K))
            have h3 := length_trimL_le K
            rw [h1] at h2
            unfold trim
            rw [h1]
            have := length_trimR_le (trimL K)
            simp only [List.length_cons]
            omega
          rw [htr] at hlen
          omega
      · rw [trimL_cons, if_neg hw]
        exact h

theorem linesTrimmed_trimR :
    ∀ (n : Nat) (y : List Char), y.length ≤ n → linesTrimmed y = true →
      linesTrimmed (trimR y) = true := by
  intro n
  induction n with
  | zero =>
    intro y hy h
    match y, hy with
    | [], _ => exact h
  | succ n ih =>
    intro y hy h
    rcases nl_decomp y with hno | ⟨pre, rest, rfl, hpre⟩
    · rw [linesTrimmed_no_nl hno] at h
      have htr : trim y = y := beq_list_iff.mp h
      have := (trim_eq_self_parts htr).2
      rw [this, linesTrimmed_no_nl hno]
      rw [beq_list_iff]
      exact htr
    · rw [linesTrimmed_append_nl rest hpre] at h
      simp only [Bool.and_eq_true] at h
      have htp : trim pre = pre := beq_list_iff.mp h.1
      rw [trimR_append]
      by_cases hc : trimR ('\n' :: rest) = []
      · rw [if_pos hc]
        rw [(trim_eq_self_parts htp).2, linesTrimmed_no_nl hpre,
          beq_list_iff]
        exact htp
      · rw [if_neg hc]
        have hrr : trimR rest ≠ [] := by
          intro hr
          apply hc
          rw [trimR_cons, hr]
          rfl
        rw [trimR_cons_of_ne_nil _ hrr]
        have hlen : rest.length ≤ n := by
          rw [List.length_append, List.length_cons] at hy
          omega
        rw [linesTrimmed_append_nl _ hpre]
        simp only [Bool.and_eq_true]
        exact ⟨beq_list_iff.mpr htp, ih rest hlen h.2⟩

theorem linesTrimmed_trim {y : List Char} (h : linesTrimmed y = true) :
    linesTrimmed (trim y) = true :=
  linesTrimmed_trimR (trimL y).length (trimL y) (Nat.le_refl _)
    (linesTrimmed_trimL h)

end Transcribe

namespace Transcribe

/-! ### Idempotence of the formatter on the tame class -/

theorem mem_trimLines {x : Char} {u : List Char} (h : x ∈ trimLines u) :
    x = '\n' ∨ x ∈ u := by
  unfold trimLines at h
  rcases mem_joinNl h with h | ⟨L, hL, hx⟩
  · exact Or.inl h
  · obtain ⟨K, hK, rfl⟩ := List.mem_map.mp hL
    exact Or.inr (mem_of_mem_splitNl hK (mem_trim hx))

theorem hasTriple_trim_false {b : Char} {X : List Char}
    (h : hasTriple b X = false) : hasTriple b (trim X) = false := by
  match hv : hasTriple b (trim X) with
  | false => rfl
  | true =>
    rw [hasTriple_trim hv] at h
    exact Bool.noConfusion h

theorem tame_spec {l : List Char} (h : tame l = true) :
    (∀ x ∈ l, goodChar x = true) ∧ linesOk l = true := by
  unfold tame at h
  simp only [Bool.and_eq_true] at h
  exact ⟨fun x hx => List.all_eq_true.mp h.1 x hx, h.2⟩

theorem formatTranscript_eq_of_good {l : List Char}
    (hg : ∀ x ∈ l, goodChar x = true) (hne : ¬ trim l = []) :
    formatTranscript l =
      trim (trimLines (collapseNewlines (collapseSpaces l))) := by
  rw [formatTranscript_eq l hne,
    crlfToLf_eq_of_no_cr (fun x hx => (goodChar_spec (hg x hx)).1),
    expandTabs_eq_of_no_tab (fun x hx => (goodChar_spec (hg x hx)).2.1)]
  have hz : ∀ x ∈ collapseNewlines (collapseSpaces l), goodChar x = true := by
    intro x hx
    rcases mem_collapseRuns hx with rfl | hx
    · decide
    · rcases mem_collapseRuns hx with rfl | hx
      · decide
      · exact hg x hx
  rw [fixPunct_eq_of_no_p isLowerAscii isUpperAscii
      (fun x hx => (goodChar_spec (hz x hx)).2.2.2.2.1),
    fixPunct_eq_of_no_p isLowerAscii isLowerAscii
      (fun x hx => (goodChar_spec (hz x hx)).2.2.1),
    fixPunct_eq_of_no_p isLowerAscii isLowerAscii
      (fun x hx => (goodChar_spec (hz x hx)).2.2.2.1),
    paraBreaks_eq_of_no_sentEnd
      (fun x hx => isSentEnd_eq_false_of_good (hz x hx))]

theorem formatTranscript_fixed {y : List Char}
    (hg : ∀ x ∈ y, goodChar x = true)
    (hsp : hasTriple ' ' y = false)
    (hnl : hasTriple '\n' y = false)
    (hlt : linesTrimmed y = true)
    (htr : trim y = y) :
    formatTranscript y = y := by
  by_cases hnil : trim y = []
  · have hy : y = [] := by rw [← htr, hnil]
    rw [hy]
    unfold formatTranscript
    rw [if_pos (show trim [] = [] from rfl)]
  · rw [formatTranscript_eq_of_good hg hnil,
      show collapseSpaces y = y from collapseRuns_eq_self hsp,
      show collapseNewlines y = y from collapseRuns_eq_self hnl,
      trimLines_eq_of_linesTrimmed hlt, htr]

theorem format_tame_props {l : List Char}
    (hg : ∀ x ∈ l, goodChar x = true) (hok : linesOk l = true) :
    (∀ x ∈ formatTranscript l, goodChar x = true) ∧
      hasTriple '\n' (formatTranscript l) = false ∧
      linesTrimmed (formatTranscript l) = true ∧
      trim (formatTranscript l) = formatTranscript l := by
  by_cases hnil : trim l = []
  · unfold formatTranscript
    rw [if_pos hnil]
    refine ⟨by intro x hx; simp at hx, rfl, linesTrimmed_nil, rfl⟩
  · rw [formatTranscript_eq_of_good hg hnil]
    have hzg : ∀ x ∈ collapseNewlines (collapseSpaces l),
        goodChar x = true := by
      intro x hx
      rcases mem_collapseRuns hx with rfl | hx
      · decide
      · rcases mem_collapseRuns hx with rfl | hx
        · decide
        · exact hg x hx
    have hokz : linesOk (collapseNewlines (collapseSpaces l)) = true :=
      linesOk_collapseNewlines (collapseSpaces l).length _ (Nat.le_refl _)
        (linesOk_collapseSpaces hok)
    have hnlz : hasTriple '\n' (collapseNewlines (collapseSpaces l)) = false :=
      hasTriple_collapseRuns_self '\n' (collapseSpaces l) 0
    refine ⟨?_, ?_, ?_, ?_⟩
    · intro x hx
      rcases mem_trimLines (mem_trim hx) with rfl | hx2
      · decide
      · exact hzg x hx2
    · exact hasTriple_trim_false
        (noTripleNl_trimLines _ _ (Nat.le_refl _) hokz hnlz)
    · exact linesTrimmed_trim (linesTrimmed_trimLines _)
    · exact trim_idem _

/-- On tame inputs the formatter is idempotent. -/
theorem formatTranscript_idem_of_tame {l : List Char} (h : tame l = true) :
    formatTranscript (formatTranscript l) = formatTranscript l := by
  obtain ⟨hg, hok⟩ := tame_spec h
  obtain ⟨g1, g2, g3, g4⟩ := format_tame_props hg hok
  exact formatTranscript_fixed g1 (noTripleSpace_format l) g2 g3 g4

end Transcribe

namespace Transcribe

/-!
### Model of the PDF pipeline and the orchestration flow

A loaded PDF document is modelled by its page count, the text items of
each page (or a page-level failure), and whether rendering a page to a
canvas succeeds. The OCR engine and the server action are oracles
supplied through an environment. Each embedded function returns, next to
the value returned by the source function, the observation needed by the
claims: which pages were attempted, whether the OCR engine or the server
was invoked.
-/

/-- The result method tag of the server action and the orchestrator. -/
inductive Method where
  | extracted
  | ocr
deriving DecidableEq, Repr

/-- A PDF document as seen through the PDF library: the page count, each
page's text items (the str fields), whether rendering each page succeeds,
and whether loading the document fails at all. -/
structure PdfModel where
  numPages : Nat
  pageItems : Nat → Except (List Char) (List (List Char))
  renderOk : Nat → Bool
  docLoadFails : Bool

/-- A rasterized page, as produced by convertPdfPageToImage; the model
keeps the number of the page that was actually rendered. -/
structure PageImage where
  page : Nat
deriving DecidableEq, Repr

/-- What the OCR engine is run on: the uploaded file itself, a rendered
PDF page, or a preprocessed version of either. -/
inductive ImgDesc where
  | rawFile
  | pdfPage (p : Nat)
  | preprocessed (d : ImgDesc)
deriving DecidableEq, Repr

/-- The recognition options record of src/utils/ocr-client.ts. -/
structure OCROptions where
  optimizeForHandwriting : Bool
  enhanceContrast : Bool
  language : List Char
  quickMode : Bool

/-- One uploaded file: a PDF, a plain file with the given media type, or
a rendered page handed back into the pipeline as a PNG. -/
inductive FileModel where
  | pdf (m : PdfModel)
  | image (mime : List Char)
  | pageImage (img : PageImage)

/-- The collaborator oracles of one run: whether the PDF library is
loaded, what the OCR engine recognizes on each image, and what the
server-side OCR produces. -/
structure Env where
  pdfJsLoaded : Bool
  recognize : ImgDesc → Except Unit (List Char)
  serverOcr : Except Unit (List Char)

/-- Joining text items of one page with single spaces. -/
def joinSp : List (List Char) → List Char
  | [] => []
  | [l] => l
  | l :: ls => l ++ ' ' :: joinSp ls

/-- What one page contributes to the extracted text: a failing page is
skipped, a page without items is skipped, any other page contributes its
trimmed items joined by spaces plus a blank line. -/
def pageContribution (m : PdfModel) (i : Nat) : List Char :=
  match m.pageItems i with
  | .error _ => []
  | .ok items =>
    if items.isEmpty then []
    else joinSp (items.map trim) ++ ['\n', '\n']

/-- src/utils/pdf-processor.ts extractTextFromPdf: iterates every page of
the document, from 1 to numPages, and returns the trimmed concatenation. -/
def extractTextFromPdf (m : PdfModel) : Except (List Char) (List Char) :=
  if m.docLoadFails then .error ("Failed to extract text from PDF".toList)
  else
    .ok (trim (((List.range m.numPages).map
      (fun k => pageContribution m (k + 1))).flatten))

/-- src/utils/pdf-processor.ts convertPdfPageToImage: a page number past
the end of the document is replaced by 1, then the page is rendered. -/
def convertPdfPageToImage (m : PdfModel) (pageNum : Nat) :
    Except (List Char) PageImage :=
  if m.docLoadFails then .error ("Failed to convert PDF to image".toList)
  else
    let p := if m.numPages < pageNum then 1 else pageNum
    if m.renderOk p then .ok ⟨p⟩
    else .error ("Could not convert PDF to image".toList)

/-- The result record of convertPdfToImages. -/
structure ConvertResult where
  images : List PageImage
  totalPages : Nat
  truncated : Bool
deriving DecidableEq, Repr

/-- src/utils/pdf-processor.ts convertPdfToImages: processes pages 1 to
min numPages maxPages, skipping pages whose conversion fails, and fails
only when no page at all converted. The first component records the page
numbers attempted by the loop. -/
def convertPdfToImages (m : PdfModel) (maxPages : Nat) :
    List Nat × Except (List Char) ConvertResult :=
  if m.docLoadFails then ([], .error ("Failed to convert PDF to images".toList))
  else
    let pagesToProcess := min m.numPages maxPages
    let attempted := (List.range pagesToProcess).map (fun k => k + 1)
    let images := attempted.filterMap (fun i =>
      match convertPdfPageToImage m i with
      | .ok img => some img
      | .error _ => none)
    if images.isEmpty then
      (attempted, .error ("Failed to convert any PDF pages to images".toList))
    else
      (attempted, .ok ⟨images, m.numPages, decide (maxPages < m.numPages)⟩)

/-- The truncation note appended by performClientOCR, including its two
leading newlines. -/
def noteBody (n : Nat) : List Char :=
  "[Note: This document has ".toList ++ (Nat.repr n).toList ++
    " pages. Only the first 3 pages were processed.]".toList

/-- The full appended string. -/
def noteText (n : Nat) : List Char := '\n' :: '\n' :: noteBody n

/-- The preprocessing applied when handwriting optimization is on and
quick mode is off. -/
def applyPre (opts : OCROptions) (d : ImgDesc) : ImgDesc :=
  if opts.optimizeForHandwriting && !opts.quickMode then .preprocessed d
  else d

/-- What one image contributes inside the performClientOCR loop: an OCR
failure is caught and skipped, recognized text is kept only when its trim
is non-empty, followed by a blank line. -/
def recognizeText (env : Env) (opts : OCROptions) (d : ImgDesc) : List Char :=
  match env.recognize (applyPre opts d) with
  | .error _ => []
  | .ok t => if (trim t).isEmpty then [] else t ++ ['\n', '\n']

/-- The image the OCR engine sees for a non-PDF file. -/
def descOf : FileModel → ImgDesc
  | .pdf _ => ImgDesc.rawFile
  | .image _ => ImgDesc.rawFile
  | .pageImage img => ImgDesc.pdfPage img.page

/-- src/utils/ocr-client.ts performClientOCR: for a PDF, convert up to 3
pages to images and recognize each; otherwise recognize the single file.
Appends the truncation note when pages were cut, then fails if the
accumulated text trims to nothing. The second component records whether
the recognition engine was invoked. -/
def performClientOCR (file : FileModel) (opts : OCROptions) (env : Env) :
    Except (List Char) (List Char) × Bool :=
  match file with
  | .pdf m =>
    match (convertPdfToImages m 3).2 with
    | .error e => (.error e, false)
    | .ok r =>
      let contrib := (r.images.map (fun img =>
        recognizeText env opts (ImgDesc.pdfPage img.page))).flatten
      let fullText :=
        if r.truncated then contrib ++ noteText r.totalPages else contrib
      if (trim fullText).isEmpty then
        (.error ("OCR could not extract any text from the document".toList),
          true)
      else (.ok (trim fullText), true)
  | f =>
    let fullText := recognizeText env opts (descOf f)
    if (trim fullText).isEmpty then
      (.error ("OCR could not extract any text from the document".toList),
        true)
    else (.ok (trim fullText), true)

/-- The result of the server action. -/
structure ServerResult where
  text : List Char
  method : Method
deriving DecidableEq, Repr

/-- src/app/actions.ts processDocument: a PDF is returned untouched with
empty text and the extracted tag; any other file goes through the
server-side OCR. The second component records whether that OCR ran. -/
def processDocument (file : FileModel) (serverOcr : Except Unit (List Char)) :
    Except Unit ServerResult × Bool :=
  match file with
  | .pdf _ => (.ok ⟨[], .extracted⟩, false)
  | _ =>
    match serverOcr with
    | .ok t => (.ok ⟨t, .ocr⟩, true)
    | .error _ => (.error (), true)

/-- The orchestrator's acceptance test on a server result, line 336 of
src/app/page.tsx. -/
def serverAccept (r : ServerResult) : Bool :=
  !r.text.isEmpty && decide (0 < (trim r.text).length)

/-- The acceptance test on extracted PDF text, line 255 of
src/app/page.tsx. -/
def extractAccept (t : List Char) : Bool :=
  !t.isEmpty && decide (10 < (trim t).length)

/-- The acceptance test on OCR text, lines 284, 316 and 350 of
src/app/page.tsx. -/
def ocrAccept (t : List Char) : Bool :=
  !t.isEmpty && decide (0 < (trim t).length)

/-- Does the media type make the last-resort branch eligible, line 346 of
src/app/page.tsx. -/
def startsWithImage : List Char → Bool
  | 'i' :: 'm' :: 'a' :: 'g' :: 'e' :: '/' :: _ => true
  | _ => false

def fallbackEligible : FileModel → Bool
  | .pdf _ => true
  | .image mime => startsWithImage mime
  | .pageImage _ => true

/-- The user-visible terminal messages of one upload run. -/
inductive ErrTag where
  | pdfLibNotLoaded
  | allMethodsFailed
  | failedExtract
deriving DecidableEq, Repr

/-- The run-scoped state written by one handleFileUpload call: the
transcript and method tag, the error message, and which collaborators
were invoked. -/
structure RunState where
  transcript : Option (List Char)
  processingMethod : Option Method
  errorMsg : Option ErrTag
  ocrInvoked : Bool
  serverInvoked : Bool
deriving DecidableEq, Repr

/-- Lines 342-365 of src/app/page.tsx: the catch of the server stage,
retrying client OCR on the original file for images and PDFs. -/
def runFallback (file : FileModel) (opts : OCROptions) (env : Env)
    (s : RunState) : RunState :=
  if fallbackEligible file then
    match performClientOCR file opts env with
    | (res, inv) =>
      let s2 : RunState := { s with ocrInvoked := s.ocrInvoked || inv }
      match res with
      | .ok t =>
        if ocrAccept t then
          { s2 with transcript := some (formatTranscript t),
                    processingMethod := some Method.ocr, errorMsg := none }
        else { s2 with errorMsg := some ErrTag.allMethodsFailed }
      | .error _ => { s2 with errorMsg := some ErrTag.allMethodsFailed }
  else { s with errorMsg := some ErrTag.failedExtract }

/-- Lines 329-366 of src/app/page.tsx: the server stage and its catch. -/
def runServerAndFallback (file : FileModel) (opts : OCROptions) (env : Env)
    (s : RunState) : RunState :=
  match processDocument file env.serverOcr with
  | (res, _) =>
    let s1 : RunState := { s with serverInvoked := true }
    match res with
    | .ok r =>
      if serverAccept r then
        { s1 with transcript := some (formatTranscript r.text),
                  processingMethod := some r.method }
      else runFallback file opts env s1
    | .error _ => runFallback file opts env s1

/-- src/app/page.tsx handleFileUpload: the full strategy chain for one
uploaded file. The getPdfInfo block only feeds the page display and is
not part of the returned run state. -/
def handleFileUpload (file : FileModel) (opts : OCROptions) (env : Env) :
    RunState :=
  let s0 : RunState := ⟨none, none, none, false, false⟩
  match file with
  | .pdf m =>
    if env.pdfJsLoaded then
      match extractTextFromPdf m with
      | .ok t =>
        if extractAccept t then
          let s1 : RunState :=
            { s0 with transcript := some (formatTranscript t),
                      processingMethod := some Method.extracted }
          match convertPdfPageToImage m 1 with
          | .ok _ => s1
          | .error _ => runServerAndFallback file opts env s1
        else
          match convertPdfPageToImage m 1 with
          | .error _ => runServerAndFallback file opts env s0
          | .ok img =>
            match performClientOCR (.pageImage img) opts env with
            | (res, inv) =>
              let s2 : RunState := { s0 with ocrInvoked := inv }
              match res with
              | .ok ot =>
                if ocrAccept ot then
                  { s2 with transcript := some (formatTranscript ot),
                            processingMethod := some Method.ocr }
                else runServerAndFallback file opts env s2
              | .error _ => runServerAndFallback file opts env s2
      | .error _ => runServerAndFallback file opts env s0
    else { s0 with errorMsg := some ErrTag.pdfLibNotLoaded }
  | _ =>
    match performClientOCR file opts env with
    | (res, inv) =>
      let s2 : RunState := { s0 with ocrInvoked := inv }
      match res with
      | .ok ot =>
        if ocrAccept ot then
          { s2 with transcript := some (formatTranscript ot),
                    processingMethod := some Method.ocr }
        else runServerAndFallback file opts env s2
      | .error _ => runServerAndFallback file opts env s2

/-- The Map lookup of the per-document page-transcript cache. -/
def lookupCache : List (Nat × List Char) → Nat → Option (List Char)
  | [], _ => none
  | (k, v) :: rest, p => if k = p then some v else lookupCache rest p

/-- The Map set: replaces the binding of the page if present. -/
def insertCache : List (Nat × List Char) → Nat → List Char →
    List (Nat × List Char)
  | [], p, v => [(p, v)]
  | (k, w) :: rest, p, v =>
    if k = p then (p, v) :: rest else (k, w) :: insertCache rest p v

/-- The outcome of one handlePageChange call. -/
structure PageChangeOutcome where
  transcript : Option (List Char)
  processingMethod : Option Method
  errorTriggered : Bool
  cache : List (Nat × List Char)
  extractInvoked : Bool
  ocrInvoked : Bool
deriving DecidableEq, Repr

/-- src/app/page.tsx handlePageChange for a PDF: render the page for
display, serve a cached transcript if one exists, otherwise run the
extract-then-OCR chain and store the result under the page number. The
source passes the page number to extractTextFromPdf, but that function
accepts only the file, so the extraction reads the whole document. -/
def handlePageChange (m : PdfModel) (page currentPage : Nat)
    (cache : List (Nat × List Char)) (opts : OCROptions) (env : Env) :
    PageChangeOutcome :=
  if page = currentPage then ⟨none, none, false, cache, false, false⟩
  else
    match convertPdfPageToImage m page with
    | .error _ => ⟨none, none, true, cache, false, false⟩
    | .ok _ =>
      match lookupCache cache page with
      | some t => ⟨some t, none, false, cache, false, false⟩
      | none =>
        match extractTextFromPdf m with
        | .ok t =>
          if extractAccept t then
            ⟨some t, some Method.extracted, false, insertCache cache page t,
              true, false⟩
          else
            match convertPdfPageToImage m page with
            | .error _ => ⟨none, none, true, cache, true, false⟩
            | .ok img =>
              match (performClientOCR (.pageImage img) opts env).1 with
              | .ok ot =>
                ⟨some ot, some Method.ocr, false, insertCache cache page ot,
                  true, true⟩
              | .error _ => ⟨none, none, true, cache, true, true⟩
        | .error _ => ⟨none, none, true, cache, true, false⟩

end Transcribe

namespace Transcribe

/-! ### The formatter never erases the last non-whitespace character -/

theorem exists_line_of_mem {x : Char} {u : List Char} (hu : x ∈ u)
    (hx : x ≠ '\n') : ∃ L ∈ splitNl u, x ∈ L := by
  have hj : x ∈ joinNl (splitNl u) := by rw [joinNl_splitNl]; exact hu
  rcases mem_joinNl hj with h | h
  · exact absurd h hx
  · exact h

theorem mem_trimLines_of {x : Char} (hw : isWs x = false) {u : List Char}
    (hu : x ∈ u) : x ∈ trimLines u := by
  have hnl : x ≠ '\n' := by
    intro he
    rw [he] at hw
    exact Bool.noConfusion ((by decide : isWs '\n' = true) ▸ hw)
  obtain ⟨L, hL, hxL⟩ := exists_line_of_mem hu hnl
  unfold trimLines
  exact mem_joinNl_of_mem (List.mem_map_of_mem trim hL) (mem_trim_of hw hxL)

theorem nonWs_ne_space {x : Char} (hw : isWs x = false) : x ≠ ' ' := by
  intro he
  rw [he] at hw
  exact Bool.noConfusion ((by decide : isWs ' ' = true) ▸ hw)

theorem nonWs_ne_nl {x : Char} (hw : isWs x = false) : x ≠ '\n' := by
  intro he
  rw [he] at hw
  exact Bool.noConfusion ((by decide : isWs '\n' = true) ▸ hw)

/-- A string with a non-whitespace character formats to a non-empty
string. -/
theorem formatTranscript_ne_nil {x : List Char} (h : trim x ≠ []) :
    formatTranscript x ≠ [] := by
  obtain ⟨c, hcx, hcw⟩ := exists_nonWs_of_trim_ne h
  rw [formatTranscript_eq x h]
  have h1 := mem_crlfToLf hcw hcx
  have h2 := mem_expandTabs hcw h1
  have h3 := mem_collapseRuns_of (c := ' ') (nonWs_ne_space hcw) (k := 0) h2
  have h4 := mem_collapseRuns_of (c := '\n') (nonWs_ne_nl hcw) (k := 0) h3
  have h5 := mem_fixPunct '.' isLowerAscii isUpperAscii h4
  have h6 := mem_fixPunct ',' isLowerAscii isLowerAscii h5
  have h7 := mem_fixPunct ':' isLowerAscii isLowerAscii h6
  have h8 := mem_paraBreaks h7
  have h9 := mem_trimLines_of hcw h8
  have h10 := mem_trim_of hcw h9
  exact List.ne_nil_of_mem h10

theorem trim_ne_nil_of_ocrAccept {t : List Char} (h : ocrAccept t = true) :
    trim t ≠ [] := by
  unfold ocrAccept at h
  simp only [Bool.and_eq_true, decide_eq_true_eq] at h
  intro he
  rw [he] at h
  simp at h

theorem trim_ne_nil_of_serverAccept {r : ServerResult}
    (h : serverAccept r = true) : trim r.text ≠ [] := by
  unfold serverAccept at h
  simp only [Bool.and_eq_true, decide_eq_true_eq] at h
  intro he
  rw [he] at h
  simp at h

theorem trim_ne_nil_of_extractAccept {t : List Char}
    (h : extractAccept t = true) : trim t ≠ [] := by
  unfold extractAccept at h
  simp only [Bool.and_eq_true, decide_eq_true_eq] at h
  intro he
  rw [he] at h
  simp at h

/-- The last-resort stage either reports an error or holds a non-empty
transcript. -/
theorem runFallback_success (file : FileModel) (opts : OCROptions)
    (env : Env) (s : RunState)
    (h : (runFallback file opts env s).errorMsg = none) :
    ∃ t, (runFallback file opts env s).transcript = some t ∧ t ≠ [] := by
  unfold runFallback at h ⊢
  by_cases he : fallbackEligible file = true
  · rw [if_pos he] at h ⊢
    match hres : performClientOCR file opts env with
    | (.ok t, inv) =>
      rw [hres] at h
      dsimp only at h ⊢
      by_cases hacc : ocrAccept t = true
      · rw [if_pos hacc]
        exact ⟨formatTranscript t, rfl,
          formatTranscript_ne_nil (trim_ne_nil_of_ocrAccept hacc)⟩
      · rw [if_neg hacc] at h
        exact absurd h (by simp)
    | (.error e, inv) =>
      rw [hres] at h
      dsimp only at h
      exact absurd h (by simp)
  · rw [if_neg he] at h
    exact absurd h (by simp)

/-- The server stage either reports an error or holds a non-empty
transcript. -/
theorem runServerAndFallback_success (file : FileModel) (opts : OCROptions)
    (env : Env) (s : RunState)
    (h : (runServerAndFallback file opts env s).errorMsg = none) :
    ∃ t, (runServerAndFallback file opts env s).transcript = some t ∧
      t ≠ [] := by
  unfold runServerAndFallback at h ⊢
  match hres : processDocument file env.serverOcr with
  | (.ok r, sv) =>
    rw [hres] at h
    dsimp only at h ⊢
    by_cases hacc : serverAccept r = true
    · rw [if_pos hacc]
      exact ⟨formatTranscript r.text, rfl,
        formatTranscript_ne_nil (trim_ne_nil_of_serverAccept hacc)⟩
    · rw [if_neg hacc] at h ⊢
      exact runFallback_success file opts env _ h
  | (.error e, sv) =>
    rw [hres] at h
    dsimp only at h ⊢
    exact runFallback_success file opts env _ h

end Transcribe

namespace Transcribe

/-- A successful run always carries a non-empty transcript. -/
theorem handleFileUpload_success (file : FileModel) (opts : OCROptions)
    (env : Env)
    (h : (handleFileUpload file opts env).errorMsg = none) :
    ∃ t, (handleFileUpload file opts env).transcript = some t ∧ t ≠ [] := by
  unfold handleFileUpload at h ⊢
  match file with
  | .pdf m =>
    dsimp only at h ⊢
    by_cases hl : env.pdfJsLoaded = true
    · rw [if_pos hl] at h ⊢
      match hex : extractTextFromPdf m with
      | .ok t =>
        rw [hex] at h
        dsimp only at h ⊢
        by_cases hacc : extractAccept t = true
        · rw [if_pos hacc] at h ⊢
          match hconv : convertPdfPageToImage m 1 with
          | .ok img =>
            rw [hconv] at h
            dsimp only at h ⊢
            exact ⟨formatTranscript t, rfl,
              formatTranscript_ne_nil (trim_ne_nil_of_extractAccept hacc)⟩
          | .error e =>
            rw [hconv] at h
            dsimp only at h ⊢
            exact runServerAndFallback_success _ _ _ _ h
        · rw [if_neg hacc] at h ⊢
          match hconv : convertPdfPageToImage m 1 with
          | .error e =>
            rw [hconv] at h
            dsimp only at h ⊢
            exact runServerAndFallback_success _ _ _ _ h
          | .ok img =>
            rw [hconv] at h
            dsimp only at h ⊢
            match hres : performClientOCR (.pageImage img) opts env with
            | (.ok ot, inv) =>
              rw [hres] at h
              dsimp only at h ⊢
              by_cases hocr : ocrAccept ot = true
              · rw [if_pos hocr]
                exact ⟨formatTranscript ot, rfl,
                  formatTranscript_ne_nil (trim_ne_nil_of_ocrAccept hocr)⟩
              · rw [if_neg hocr] at h ⊢
                exact runServerAndFallback_success _ _ _ _ h
            | (.error e, inv) =>
              rw [hres] at h
              dsimp only at h ⊢
              exact runServerAndFallback_success _ _ _ _ h
      | .error e =>
        rw [hex] at h
        dsimp only at h ⊢
        exact runServerAndFallback_success _ _ _ _ h
    · rw [if_neg hl] at h
      exact absurd h (by simp)
  | .image mime =>
    dsimp only at h ⊢
    match hres : performClientOCR (.image mime) opts env with
    | (.ok ot, inv) =>
      rw [hres] at h
      dsimp only at h ⊢
      by_cases hocr : ocrAccept ot = true
      · rw [if_pos hocr]
        exact ⟨formatTranscript ot, rfl,
          formatTranscript_ne_nil (trim_ne_nil_of_ocrAccept hocr)⟩
      · rw [if_neg hocr] at h ⊢
        exact runServerAndFallback_success _ _ _ _ h
    | (.error e, inv) =>
      rw [hres] at h
      dsimp only at h ⊢
      exact runServerAndFallback_success _ _ _ _ h
  | .pageImage img =>
    dsimp only at h ⊢
    match hres : performClientOCR (.pageImage img) opts env with
    | (.ok ot, inv) =>
      rw [hres] at h
      dsimp only at h ⊢
      by_cases hocr : ocrAccept ot = true
      · rw [if_pos hocr]
        exact ⟨formatTranscript ot, rfl,
          formatTranscript_ne_nil (trim_ne_nil_of_ocrAccept hocr)⟩
      · rw [if_neg hocr] at h ⊢
        exact runServerAndFallback_success _ _ _ _ h
    | (.error e, inv) =>
      rw [hres] at h
      dsimp only at h ⊢
      exact runServerAndFallback_success _ _ _ _ h

end Transcribe

namespace Transcribe

/-! ### Helper facts for the orchestrator claims -/

theorem flatten_all_nil :
    ∀ (Ls : List (List Char)), (∀ x ∈ Ls, x = []) → Ls.flatten = [] := by
  intro Ls
  induction Ls with
  | nil => intro _; rfl
  | cons L t ih =>
    intro h
    rw [List.flatten_cons, h L (List.mem_cons_self _ _), List.nil_append]
    exact ih (fun x hx => h x (List.mem_cons_of_mem _ hx))

theorem flatten_map_single {v : List Char} {i : Nat} :
    ∀ (ks : List Nat), ks.Nodup → i ∈ ks →
      (ks.map (fun j => if j = i then v else [])).flatten = v := by
  intro ks
  induction ks with
  | nil => intro _ h; simp at h
  | cons k t ih =>
    intro hnd hm
    rw [List.map_cons, List.flatten_cons]
    by_cases hk : k = i
    · subst hk
      rw [if_pos rfl]
      have hknt : k ∉ t := (List.nodup_cons.mp hnd).1
      have hall : (t.map (fun j => if j = k then v else [])).flatten = [] := by
        refine flatten_all_nil _ ?_
        intro x hx
        obtain ⟨j, hj, rfl⟩ := List.mem_map.mp hx
        have hjk : j ≠ k := fun he => hknt (he ▸ hj)
        rw [if_neg hjk]
      rw [hall, List.append_nil]
    · rw [if_neg hk, List.nil_append]
      refine ih (List.nodup_cons.mp hnd).2 ?_
      rcases List.mem_cons.mp hm with rfl | hm
      · exact absurd rfl hk
      · exact hm

theorem trim_append_nls {t : List Char} (h : trim t ≠ []) :
    trim (trim t ++ ['\n', '\n']) = trim t := by
  have hparts := trim_eq_self_parts (trim_idem t)
  show trimR (trimL (trim t ++ ['\n', '\n'])) = trim t
  rw [trimL_append, hparts.1, if_neg h, trimR_append,
    if_pos (by decide : trimR ['\n', '\n'] = []), hparts.2]

end Transcribe

namespace Transcribe

theorem recognizeText_nil {env : Env} {opts : OCROptions} {d : ImgDesc}
    (hocr : ∀ e t, env.recognize e = .ok t → trim t = []) :
    recognizeText env opts d = [] := by
  unfold recognizeText
  match hr : env.recognize (applyPre opts d) with
  | .error _ => rfl
  | .ok t =>
    dsimp only
    rw [show (trim t).isEmpty = true by
      rw [hocr _ t hr]
      rfl]
    rfl

theorem noteBody_ne_nil (n : Nat) : noteBody n ≠ [] := by
  unfold noteBody
  intro h
  have := congrArg List.length h
  rw [List.length_append, List.length_append] at this
  simp at this

theorem trim_noteText (n : Nat) : trim (noteText n) = noteBody n := by
  unfold noteText
  show trimR (trimL ('\n' :: '\n' :: noteBody n)) = noteBody n
  rw [trimL_cons, if_pos (by decide), trimL_cons, if_pos (by decide)]
  unfold noteBody
  rw [trimL_append, trimL_append,
    if_neg (by decide :
      ¬ trimL ("[Note: This document has ".toList) = [])]
  rw [if_neg ?hne]
  case hne =>
    rw [show trimL ("[Note: This document has ".toList) =
        "[Note: This document has ".toList by decide]
    simp
  rw [show trimL ("[Note: This document has ".toList) =
      "[Note: This document has ".toList by decide]
  rw [trimR_append,
    if_neg (by decide :
      ¬ trimR (" pages. Only the first 3 pages were processed.]".toList) = []),
    show trimR (" pages. Only the first 3 pages were processed.]".toList) =
      " pages. Only the first 3 pages were processed.]".toList by decide]

end Transcribe

namespace Transcribe

/-! ### Concrete documents and environments used as test vectors -/

/-- The default recognition options of the page component. -/
def optsDefault : OCROptions := ⟨false, false, "eng".toList, false⟩

/-- An environment whose OCR engine and server both fail. -/
def envAllFail : Env := ⟨true, fun _ => .error (), .error ()⟩

/-- One page of long embedded text, but rendering always fails. -/
def mRenderFail : PdfModel :=
  ⟨1,
    fun i => if i = 1 then .ok ["this text layer is long enough".toList]
      else .ok [],
    fun _ => false, false⟩

/-- Two pages, page one with long embedded text, rendering fine. -/
def mHappy : PdfModel :=
  ⟨2,
    fun i => if i = 1 then .ok ["plenty of embedded text here".toList]
      else .ok [],
    fun _ => true, false⟩

/-- One page whose embedded text is short but non-empty. -/
def mShortText : PdfModel :=
  ⟨1, fun i => if i = 1 then .ok ["hello".toList] else .ok [],
    fun _ => true, false⟩

/-- Five empty pages, everything healthy. -/
def mFivePages : PdfModel := ⟨5, fun _ => .ok [], fun _ => true, false⟩

/-- Four pages, text only on page four. -/
def mPageFourText : PdfModel :=
  ⟨4, fun i => if i = 4 then .ok ["xyz".toList] else .ok [],
    fun _ => true, false⟩

/-- Four pages, no text anywhere; identical to mPageFourText on pages one
to three. -/
def mPageFourBlank : PdfModel :=
  ⟨4, fun _ => .ok [], fun _ => true, false⟩

/-- A healthy one-page document. -/
def mOnePage : PdfModel := ⟨1, fun _ => .ok [], fun _ => true, false⟩

/-- Four blank pages for the truncation-note run. -/
def mFourPages : PdfModel := ⟨4, fun _ => .ok [], fun _ => true, false⟩

/-- Two pages: long text on page one, nothing on page two. -/
def mPageOneText : PdfModel :=
  ⟨2, fun i => if i = 1 then .ok ["welcome home friend".toList] else .ok [],
    fun _ => true, false⟩

/-- A document with a single page holding the given single text item. -/
def singlePageModel (n i : Nat) (t : List Char) : PdfModel :=
  ⟨n, fun j => if j = i then .ok [t] else .ok [], fun _ => true, false⟩

instance {ε α : Type} [DecidableEq ε] [DecidableEq α] :
    DecidableEq (Except ε α)
  | .error a, .error b =>
    if h : a = b then .isTrue (by rw [h])
    else .isFalse (fun hc => h (Except.error.inj hc))
  | .error a, .ok b => .isFalse (fun hc => Except.noConfusion hc)
  | .ok a, .error b => .isFalse (fun hc => Except.noConfusion hc)
  | .ok a, .ok b =>
    if h : a = b then .isTrue (by rw [h])
    else .isFalse (fun hc => h (Except.ok.inj hc))

/-- C3: for every paginated document, the truncated flag of
convertPdfToImages is false when the page count is at most the cap 3 and
true when it exceeds 3, and the loop attempts exactly min numPages 3
pages, hence exactly 3 in the truncated case. -/
theorem claim_C3_truncation_flag (m : PdfModel) (h : m.docLoadFails = false) :
    (convertPdfToImages m 3).1.length = min m.numPages 3 ∧
      (3 < m.numPages → (convertPdfToImages m 3).1.length = 3) ∧
      ∀ r, (convertPdfToImages m 3).2 = Except.ok r →
        r.truncated = decide (3 < m.numPages) := by
  have h1 : (convertPdfToImages m 3).1 =
      (List.range (min m.numPages 3)).map (fun k => k + 1) := by
    unfold convertPdfToImages
    rw [h, if_neg (fun hc => Bool.noConfusion hc)]
    dsimp only
    split
    · rfl
    · rfl
  refine ⟨?_, ?_, ?_⟩
  · rw [h1, List.length_map, List.length_range]
  · intro h3
    rw [h1, List.length_map, List.length_range]
    exact Nat.min_eq_right (Nat.le_of_lt h3)
  · intro r hr
    unfold convertPdfToImages at hr
    rw [h, if_neg (fun hc => Bool.noConfusion hc)] at hr
    dsimp only at hr
    split at hr
    · exact absurd hr (by simp)
    · have hre := (Except.ok.inj hr).symm
      rw [hre]

/-- Witness for C3 on a healthy five-page document. -/
theorem claim_C3_truncation_flag_witness :
    (convertPdfToImages mFivePages 3).1.length = 3 ∧
      (⟨[⟨1⟩, ⟨2⟩, ⟨3⟩], 5, true⟩ : ConvertResult).truncated =
        decide (3 < mFivePages.numPages) :=
  ⟨(claim_C3_truncation_flag mFivePages rfl).2.1 (by decide),
    (claim_C3_truncation_flag mFivePages rfl).2.2 ⟨[⟨1⟩, ⟨2⟩, ⟨3⟩], 5, true⟩
      (by rfl)⟩

/-- C8 as stated is false: a request past the last page does not fail; it
is clamped to page one and succeeds. -/
theorem claim_C8_counterexample :
    mOnePage.numPages = 1 ∧
      convertPdfPageToImage mOnePage 5 = Except.ok ⟨1⟩ := by
  constructor
  · rfl
  · rfl

/-- C8 amended: when the requested page number exceeds the page count,
the rasterizer does not fail with an error; it behaves exactly as a
request for page one. -/
theorem claim_C8_clamp (m : PdfModel) (p : Nat) (h : m.numPages < p) :
    convertPdfPageToImage m p = convertPdfPageToImage m 1 := by
  unfold convertPdfPageToImage
  by_cases hload : m.docLoadFails = true
  · rw [hload, if_pos rfl, if_pos rfl]
  · rw [show m.docLoadFails = false by
      match hv : m.docLoadFails with
      | false => rfl
      | true => exact absurd hv hload]
    rw [if_neg (show ¬ (false = true) from fun hc => Bool.noConfusion hc),
      if_neg (show ¬ (false = true) from fun hc => Bool.noConfusion hc)]
    dsimp only
    rw [if_pos h]
    by_cases h1 : m.numPages < 1
    · rw [if_pos h1]
    · rw [if_neg h1]

/-- Witness for C8 on the one-page document and page five. -/
theorem claim_C8_clamp_witness :
    mOnePage.numPages < 5 ∧
      convertPdfPageToImage mOnePage 5 = convertPdfPageToImage mOnePage 1 :=
  ⟨by decide, claim_C8_clamp mOnePage 5 (by decide)⟩

/-- C9: the server action answers every PDF with empty text and the
extracted tag, without running recognition, and the orchestrator's
acceptance test rejects that result. -/
theorem claim_C9_server_pdf (m : PdfModel)
    (serverOcr : Except Unit (List Char)) :
    processDocument (.pdf m) serverOcr =
        (Except.ok ⟨[], Method.extracted⟩, false) ∧
      serverAccept ⟨[], Method.extracted⟩ = false :=
  ⟨rfl, by decide⟩

end Transcribe

namespace Transcribe

theorem convert_attempted_length (m : PdfModel) (h : m.docLoadFails = false)
    (mp : Nat) :
    (convertPdfToImages m mp).1.length = min m.numPages mp := by
  have h1 : (convertPdfToImages m mp).1 =
      (List.range (min m.numPages mp)).map (fun k => k + 1) := by
    unfold convertPdfToImages
    rw [h, if_neg (show ¬ (false = true) from fun hc => Bool.noConfusion hc)]
    dsimp only
    split
    · rfl
    · rfl
  rw [h1, List.length_map, List.length_range]

/-- C4 as stated is false: the text-layer extraction is not limited to
the first three pages. Two four-page documents that agree on pages one to
three but differ on page four extract different text; the document whose
page four holds text extracts exactly that text. -/
theorem claim_C4_counterexample :
    mPageFourText.numPages = mPageFourBlank.numPages ∧
      mPageFourText.pageItems 1 = mPageFourBlank.pageItems 1 ∧
      mPageFourText.pageItems 2 = mPageFourBlank.pageItems 2 ∧
      mPageFourText.pageItems 3 = mPageFourBlank.pageItems 3 ∧
      extractTextFromPdf mPageFourText = Except.ok ("xyz".toList) ∧
      extractTextFromPdf mPageFourBlank = Except.ok [] ∧
      extractTextFromPdf mPageFourText ≠ extractTextFromPdf mPageFourBlank := by
  refine ⟨rfl, rfl, rfl, rfl, rfl, rfl, ?_⟩
  intro h
  rw [show extractTextFromPdf mPageFourText = Except.ok ("xyz".toList)
    from rfl] at h
  rw [show extractTextFromPdf mPageFourBlank = Except.ok [] from rfl] at h
  exact absurd (Except.ok.inj h) (by decide)

/-- C4 amended: the three-page cap governs the OCR path, whose conversion
loop attempts exactly min numPages 3 pages, but not the text-layer
extraction, which reads every page: text sitting on any page i of an
n-page document, even past page 3, is returned by the extraction. -/
theorem claim_C4_cap_only_ocr (n i : Nat) (t : List Char)
    (h1 : 1 ≤ i) (h2 : i ≤ n) (h3 : trim t ≠ []) :
    extractTextFromPdf (singlePageModel n i t) = Except.ok (trim t) ∧
      (convertPdfToImages (singlePageModel n i t) 3).1.length = min n 3 := by
  constructor
  · unfold extractTextFromPdf
    rw [show (singlePageModel n i t).docLoadFails = false from rfl,
      if_neg (show ¬ (false = true) from fun hc => Bool.noConfusion hc)]
    have hcontrib : ∀ j, pageContribution (singlePageModel n i t) j =
        if j = i then trim t ++ ['\n', '\n'] else [] := by
      intro j
      by_cases hj : j = i
      · subst hj
        rw [if_pos rfl]
        unfold pageContribution singlePageModel
        dsimp only
        rw [if_pos rfl]
        rfl
      · rw [if_neg hj]
        unfold pageContribution singlePageModel
        dsimp only
        rw [if_neg hj]
        rfl
    have hmap : (List.range n).map
        (fun k => pageContribution (singlePageModel n i t) (k + 1)) =
        ((List.range n).map (fun k => k + 1)).map
          (fun j => if j = i then trim t ++ ['\n', '\n'] else []) := by
      rw [List.map_map]
      exact List.map_congr_left (fun k _ => hcontrib (k + 1))
    rw [show (singlePageModel n i t).numPages = n from rfl]
    rw [hmap, flatten_map_single _ ?nodup ?memi, trim_append_nls h3]
    case nodup =>
      exact (List.nodup_range n).map (fun a b hab => by omega)
    case memi =>
      rw [List.mem_map]
      exact ⟨i - 1, by rw [List.mem_range]; omega, by omega⟩
  · rw [convert_attempted_length _ rfl]
    rfl

/-- Witness for C4: text on page four of a four-page document is picked
up by the extraction while the conversion loop attempts three pages. -/
theorem claim_C4_cap_only_ocr_witness :
    (1 ≤ 4 ∧ 4 ≤ 4 ∧ trim ("xyz".toList) ≠ []) ∧
      extractTextFromPdf (singlePageModel 4 4 ("xyz".toList)) =
        Except.ok (trim ("xyz".toList)) ∧
      (convertPdfToImages (singlePageModel 4 4 ("xyz".toList)) 3).1.length =
        min 4 3 :=
  ⟨⟨by decide, by decide, by decide⟩,
    claim_C4_cap_only_ocr 4 4 ("xyz".toList) (by decide) (by decide)
      (by decide)⟩

end Transcribe

namespace Transcribe

/-- C10: for a PDF of more than three pages whose processed pages all
yield no recognized text, the client OCR adapter appends the truncation
note before its emptiness check and therefore returns the note alone as
a non-empty transcript instead of raising the no-text error. -/
theorem claim_C10_truncation_note (m : PdfModel) (opts : OCROptions)
    (env : Env)
    (hn : 3 < m.numPages) (hload : m.docLoadFails = false)
    (hrender : ∀ p, m.renderOk p = true)
    (hocr : ∀ e t, env.recognize e = Except.ok t → trim t = []) :
    (performClientOCR (.pdf m) opts env).1 = Except.ok (noteBody m.numPages) ∧
      noteBody m.numPages ≠ [] := by
  refine ⟨?_, noteBody_ne_nil _⟩
  have hmin : min m.numPages 3 = 3 := Nat.min_eq_right (Nat.le_of_lt hn)
  have hpage : ∀ i, 1 ≤ i → i ≤ 3 →
      convertPdfPageToImage m i = Except.ok ⟨i⟩ := by
    intro i hi1 hi3
    unfold convertPdfPageToImage
    rw [hload, if_neg (show ¬ (false = true) from fun hc => Bool.noConfusion hc)]
    dsimp only
    rw [if_neg (show ¬ m.numPages < i by omega), if_pos (hrender i)]
  have hconv : (convertPdfToImages m 3).2 =
      Except.ok ⟨[⟨1⟩, ⟨2⟩, ⟨3⟩], m.numPages, true⟩ := by
    unfold convertPdfToImages
    rw [hload, if_neg (show ¬ (false = true) from fun hc => Bool.noConfusion hc)]
    dsimp only
    rw [hmin, show (List.range 3).map (fun k => k + 1) = [1, 2, 3] from rfl]
    rw [List.filterMap_cons, hpage 1 (by omega) (by omega)]
    rw [List.filterMap_cons, hpage 2 (by omega) (by omega)]
    rw [List.filterMap_cons, hpage 3 (by omega) (by omega)]
    dsimp only [List.filterMap_nil]
    rw [if_neg (show ¬ ([(⟨1⟩ : PageImage), ⟨2⟩, ⟨3⟩].isEmpty = true)
      from by decide)]
    rw [decide_eq_true hn]
  unfold performClientOCR
  dsimp only
  rw [hconv]
  dsimp only
  rw [if_pos rfl, List.map_cons, List.map_cons, List.map_cons, List.map_nil]
  dsimp only
  rw [recognizeText_nil hocr, recognizeText_nil hocr, recognizeText_nil hocr]
  rw [show ([[], [], []] : List (List Char)).flatten = [] from rfl,
    List.nil_append, trim_noteText]
  have hne : ¬ ((noteBody m.numPages).isEmpty = true) := fun hc =>
    noteBody_ne_nil m.numPages (List.isEmpty_iff.mp hc)
  rw [if_neg hne]

/-- Witness for C10 on a blank four-page document with a failing OCR
engine. -/
theorem claim_C10_truncation_note_witness :
    (performClientOCR (.pdf mFourPages) optsDefault envAllFail).1 =
        Except.ok (noteBody mFourPages.numPages) ∧
      noteBody mFourPages.numPages ≠ [] :=
  claim_C10_truncation_note mFourPages optsDefault envAllFail (by decide) rfl
    (fun p => rfl) (fun e t h => by exact absurd h (by simp [envAllFail]))

end Transcribe

namespace Transcribe

/-- C1 as stated is false: when the display rasterization of page one
fails after a sufficient text-layer extraction, the run falls through to
the server stage even though the extraction yielded more than ten
trimmed characters. -/
theorem claim_C1_counterexample :
    extractTextFromPdf mRenderFail =
        Except.ok ("this text layer is long enough".toList) ∧
      10 < (trim ("this text layer is long enough".toList)).length ∧
      (handleFileUpload (.pdf mRenderFail) optsDefault
        envAllFail).serverInvoked = true := by
  refine ⟨rfl, by decide, rfl⟩

/-- C1 amended: for a PDF whose text-layer extraction succeeds with more
than ten trimmed characters, provided the PDF library is loaded and the
page-one display rasterization succeeds, the run finishes with the
extracted method and this transcript, and neither the OCR engine nor the
server collaborator is ever invoked. -/
theorem claim_C1_strategy_order (m : PdfModel) (opts : OCROptions) (env : Env)
    (t : List Char)
    (hload : env.pdfJsLoaded = true)
    (hex : extractTextFromPdf m = Except.ok t)
    (hlen : 10 < (trim t).length)
    (hrender : ∃ img, convertPdfPageToImage m 1 = Except.ok img) :
    (handleFileUpload (.pdf m) opts env).processingMethod =
        some Method.extracted ∧
      (handleFileUpload (.pdf m) opts env).transcript =
        some (formatTranscript t) ∧
      (handleFileUpload (.pdf m) opts env).ocrInvoked = false ∧
      (handleFileUpload (.pdf m) opts env).serverInvoked = false ∧
      (handleFileUpload (.pdf m) opts env).errorMsg = none := by
  obtain ⟨img, hconv⟩ := hrender
  have hne : t ≠ [] := by
    intro he
    rw [he] at hlen
    rw [show trim ([] : List Char) = [] from rfl] at hlen
    simp at hlen
  have hie : t.isEmpty = false := by
    match t, hne with
    | x :: xs, _ => rfl
  have hacc : extractAccept t = true := by
    unfold extractAccept
    rw [hie]
    simp only [Bool.not_false, Bool.true_and, decide_eq_true_eq]
    exact hlen
  unfold handleFileUpload
  dsimp only
  rw [if_pos hload, hex]
  dsimp only
  rw [if_pos hacc, hconv]
  dsimp only
  exact ⟨rfl, rfl, rfl, rfl, rfl⟩

/-- Witness for C1 on the healthy two-page document. -/
theorem claim_C1_strategy_order_witness :
    (handleFileUpload (.pdf mHappy) optsDefault envAllFail).processingMethod =
        some Method.extracted ∧
      (handleFileUpload (.pdf mHappy) optsDefault envAllFail).transcript =
        some (formatTranscript ("plenty of embedded text here".toList)) ∧
      (handleFileUpload (.pdf mHappy) optsDefault envAllFail).ocrInvoked =
        false ∧
      (handleFileUpload (.pdf mHappy) optsDefault envAllFail).serverInvoked =
        false ∧
      (handleFileUpload (.pdf mHappy) optsDefault envAllFail).errorMsg =
        none :=
  claim_C1_strategy_order mHappy optsDefault envAllFail
    ("plenty of embedded text here".toList) rfl rfl (by decide) ⟨⟨1⟩, rfl⟩

/-- C2 as stated is false: a PDF whose text layer yields the non-empty
trimmed text hello, with every other strategy failing, ends in failure
although a strategy produced non-empty trimmed text. -/
theorem claim_C2_counterexample :
    extractTextFromPdf mShortText = Except.ok ("hello".toList) ∧
      trim ("hello".toList) ≠ [] ∧
      (handleFileUpload (.pdf mShortText) optsDefault envAllFail).errorMsg =
        some ErrTag.allMethodsFailed := by
  refine ⟨rfl, by decide, rfl⟩

/-- C2 amended: an orchestration run that finishes without an error
message always carries a non-empty transcript; it never completes
successfully with an empty transcript. -/
theorem claim_C2_success_nonempty (file : FileModel) (opts : OCROptions)
    (env : Env)
    (h : (handleFileUpload file opts env).errorMsg = none) :
    ∃ t, (handleFileUpload file opts env).transcript = some t ∧ t ≠ [] :=
  handleFileUpload_success file opts env h

/-- Witness for C2 on the happy-path document. -/
theorem claim_C2_success_nonempty_witness :
    (handleFileUpload (.pdf mHappy) optsDefault envAllFail).errorMsg = none ∧
      ∃ t, (handleFileUpload (.pdf mHappy) optsDefault envAllFail).transcript =
        some t ∧ t ≠ [] :=
  ⟨rfl, claim_C2_success_nonempty (.pdf mHappy) optsDefault envAllFail rfl⟩

/-- C5 as stated is false: chained comma-repair sites escape a single
pass, so a second application changes the output. -/
theorem claim_C5_counterexample :
    formatTranscript (formatTranscript ("a,b,c".toList)) ≠
      formatTranscript ("a,b,c".toList) := by decide

/-- C5 amended: the formatter is idempotent on strings free of carriage
returns, tabs and repair or sentence punctuation whose nonempty lines are
not whitespace-only. -/
theorem claim_C5_idempotent_tame (l : List Char) (h : tame l = true) :
    formatTranscript (formatTranscript l) = formatTranscript l :=
  formatTranscript_idem_of_tame h

/-- Witness for C5 on a two-paragraph tame string. -/
theorem claim_C5_idempotent_tame_witness :
    tame ("hello world\n\nsecond line".toList) = true ∧
      formatTranscript
          (formatTranscript ("hello world\n\nsecond line".toList)) =
        formatTranscript ("hello world\n\nsecond line".toList) :=
  ⟨by decide, claim_C5_idempotent_tame ("hello world\n\nsecond line".toList)
    (by decide)⟩

/-- C6 as stated is false for newlines: trimming whitespace-only lines
can create a run of three newlines in the output. -/
theorem claim_C6_counterexample :
    hasTriple '\n' (formatTranscript ("a\n \n \nb".toList)) = true := by
  decide

/-- C6 amended: the formatter output never contains three consecutive
spaces. -/
theorem claim_C6_no_triple_space (l : List Char) :
    hasTriple ' ' (formatTranscript l) = false :=
  noTripleSpace_format l

/-- C7: the claim describes the intended behavior, and the code slips:
the caller passes the page number to extractTextFromPdf, which accepts
only the file, so a cache miss on blank page two of a document with long
text on page one stores and displays the whole-document (page-one) text
keyed by page two instead of running a page-two-scoped extraction. The
cache-hit path itself is correct: a stored page is served without
invoking extraction or recognition. -/
theorem claim_C7_page_scope_bug :
    mPageOneText.pageItems 2 = Except.ok [] ∧
      (handlePageChange mPageOneText 2 1 [] optsDefault envAllFail).cache =
        [(2, "welcome home friend".toList)] ∧
      (handlePageChange mPageOneText 2 1 []
          optsDefault envAllFail).processingMethod = some Method.extracted ∧
      (handlePageChange mPageOneText 2 1 [(2, "stored".toList)]
          optsDefault envAllFail).transcript = some ("stored".toList) ∧
      (handlePageChange mPageOneText 2 1 [(2, "stored".toList)]
          optsDefault envAllFail).extractInvoked = false ∧
      (handlePageChange mPageOneText 2 1 [(2, "stored".toList)]
          optsDefault envAllFail).ocrInvoked = false := by
  refine ⟨rfl, rfl, rfl, rfl, rfl, rfl⟩

end Transcribe
